import Mathlib

/-
Verification of the cancelable-promise core of cancelable-promise-jq.

The development shallowly embeds the CancelablePromise class of
src/unnamed/part_003 (the current implementation: Set-based listener
registries, disposeCallbacks, progress reporting, and the race / all /
allSettled combinators) together with toCancelablePromise from
CancelablePromise.utils.

Modelling choices, each traceable to the source:
  - A promise instance is a CPState; a program run owns a World, a list of
    CPState indexed by creation order (a PId is an index into that list).
  - The underlying native Promise is single-assignment storage: the field
    native is written at most once (nativeSettle keeps the first write),
    mirroring the host promise; the status field by contrast is a plain
    mutable field, exactly as in the source.
  - User-supplied listeners are opaque: invoking one is recorded as an
    Event in a trace.  The two closure shapes the library itself registers
    are reified: TCancelCallback.cancelOther target passReason models
    reason => target.cancel(reason) (passReason = true, createChildPromise)
    and () => target.cancel() (passReason = false, the combinators).
  - cancel takes a fuel argument because canceling one promise runs
    listeners that cancel further promises; in every configuration built
    here the recursion depth is bounded and theorems quantify over
    sufficient fuel.
  - JS Set semantics: insertion order preserved, adding a present element
    is a no-op (setAdd), delete removes the element (List.erase).
-/

namespace CPJ

/-- Status enum of a cancelable promise: TPromiseStatus in the source. -/
inductive TPromiseStatus where
  | pending
  | resolved
  | rejected
  | canceled
deriving DecidableEq, Repr

/-- Opaque JavaScript values: undefined, the default cancellation error
object new Error with message Promise canceled, and arbitrary distinct
values indexed by a natural number. -/
inductive JSVal where
  | undef
  | errPromiseCanceled
  | raw (n : Nat)
deriving DecidableEq, Repr

/-- Settlement record produced by allSettled: tagged fulfilled with a
value, or rejected or canceled with a reason (TPromiseSettledResult). -/
inductive SettledRecord where
  | fulfilled (value : JSVal)
  | rejected (reason : JSVal)
  | canceledRec (reason : JSVal)
deriving DecidableEq, Repr

/-- Outcome stored in the underlying native promise.  Combinator parents
resolve with collections, so those shapes are separate constructors. -/
inductive NativeResult where
  | resolvedWith (v : JSVal)
  | resolvedWithArr (vs : List (Option JSVal))
  | resolvedWithRecords (rs : List (Option SettledRecord))
  | rejectedWith (r : JSVal)
deriving DecidableEq, Repr

/-- Index of a promise in the World, in creation order. -/
abbrev PId := Nat

/-- Cancel listener: either an opaque user callback (identified by a
number) or one of the two closures the library registers itself, which
call cancel on another promise, forwarding the reason or not. -/
inductive TCancelCallback where
  | user (id : Nat)
  | cancelOther (target : PId) (passReason : Bool)
deriving DecidableEq, Repr

/-- Observable listener invocation. -/
inductive Event where
  | cancelCb (id : Nat) (reason : JSVal)
  | progressCb (id : Nat) (percentage : JSVal) (metadata : JSVal)
deriving DecidableEq, Repr

/-- Per-instance state of a CancelablePromise: the status field, the three
listener registries and the underlying native promise cell. -/
structure CPState where
  status : TPromiseStatus
  ownCancelCallbacks : List TCancelCallback
  cancelCallbacks : List TCancelCallback
  onProgressCallbacks : List Nat
  native : Option NativeResult
deriving DecidableEq, Repr

/-- A run of the program: every promise created so far, by creation order. -/
abbrev World := List CPState

/-- State of a freshly constructed promise whose executor body has not yet
settled it: status pending, empty registries, unsettled native cell. -/
def newPromiseState : CPState :=
  { status := TPromiseStatus.pending
    ownCancelCallbacks := []
    cancelCallbacks := []
    onProgressCallbacks := []
    native := none }

/-- Read a promise state from the world. -/
def getP (w : World) (i : PId) : Option CPState := w[i]?

/-- Write a promise state back into the world. -/
def setP (w : World) (i : PId) (s : CPState) : World := w.set i s

/-- Status of promise i, when it exists. -/
def statusOf (w : World) (i : PId) : Option TPromiseStatus :=
  (getP w i).map CPState.status

/-- Settled native outcome of promise i, when it exists and is settled. -/
def nativeOf (w : World) (i : PId) : Option NativeResult :=
  (getP w i).bind CPState.native

/-- JS Set add: appends unless the element is already present. -/
def setAdd {α : Type} [DecidableEq α] (l : List α) (a : α) : List α :=
  if a ∈ l then l else l ++ [a]

/-- Single-assignment write of the native promise cell: the first
settlement wins, all later ones are ignored by the host promise. -/
def nativeSettle (cur : Option NativeResult) (res : NativeResult) : Option NativeResult :=
  match cur with
  | none => some res
  | some x => some x

/-- Lines 116-120: disposeCallbacks replaces all three registries with
fresh empty sets. -/
def disposeCallbacks (s : CPState) : CPState :=
  { s with
    ownCancelCallbacks := []
    cancelCallbacks := []
    onProgressCallbacks := [] }

/-- Line 257: reason === undefined substitutes new Error Promise canceled. -/
def defaultReason (reason : JSVal) : JSVal :=
  if reason = JSVal.undef then JSVal.errPromiseCanceled else reason

/-- Shared body of the two executor-argument closures of the constructor
(lines 148-160): set status, dispose the registries, forward to the
native promise cell (which keeps its first settlement). -/
def settleWrapped (w : World) (i : PId) (st : TPromiseStatus) (res : NativeResult) : World :=
  match getP w i with
  | none => w
  | some s =>
    setP w i (disposeCallbacks { s with status := st, native := nativeSettle s.native res })

/-- Lines 149-154: the resolve argument handed to the executor body.  Note
that the source sets this.status to resolved unconditionally, with no
pending check. -/
def resolveWrapped (w : World) (i : PId) (v : JSVal) : World :=
  settleWrapped w i TPromiseStatus.resolved (NativeResult.resolvedWith v)

/-- Variant of resolveWrapped used by combinator parents, which resolve
with a collection value. -/
def resolveWrappedRes (w : World) (i : PId) (res : NativeResult) : World :=
  settleWrapped w i TPromiseStatus.resolved res

/-- Lines 155-160: the reject argument handed to the executor body; like
resolve it overwrites status unconditionally. -/
def rejectWrapped (w : World) (i : PId) (r : JSVal) : World :=
  settleWrapped w i TPromiseStatus.rejected (NativeResult.rejectedWith r)

/-- Lines 236-244: subscribeToOwnCancelEvent adds the callback to the own
registry (the returned closure is modeled by unsubscribeOwnCancel). -/
def subscribeToOwnCancelEvent (w : World) (i : PId) (cb : TCancelCallback) : World :=
  match getP w i with
  | none => w
  | some s =>
    setP w i { s with ownCancelCallbacks := setAdd s.ownCancelCallbacks cb }

/-- Closure returned by subscribeToOwnCancelEvent: delete the callback
from the current own registry. -/
def unsubscribeOwnCancel (w : World) (i : PId) (cb : TCancelCallback) : World :=
  match getP w i with
  | none => w
  | some s =>
    setP w i { s with ownCancelCallbacks := s.ownCancelCallbacks.erase cb }

/-- Lines 276-287: the public onCancel method adds to the external cancel
registry (and returns the promise itself). -/
def onCancel (w : World) (i : PId) (cb : TCancelCallback) : World :=
  match getP w i with
  | none => w
  | some s =>
    setP w i { s with cancelCallbacks := setAdd s.cancelCallbacks cb }

/-- Deletion from the external cancel registry, as wired to a signal in
onCancel and performed by the race unSubscribe closure. -/
def unsubscribeCancel (w : World) (i : PId) (cb : TCancelCallback) : World :=
  match getP w i with
  | none => w
  | some s =>
    setP w i { s with cancelCallbacks := s.cancelCallbacks.erase cb }

/-- Lines 292-303: the public onProgress method adds to the progress
registry; the utils variant of the constructor also lands here. -/
def onProgress (w : World) (i : PId) (cb : Nat) : World :=
  match getP w i with
  | none => w
  | some s =>
    setP w i { s with onProgressCallbacks := setAdd s.onProgressCallbacks cb }

/-- Closure deleting a progress listener (utils onProgress return value
and the signal wiring of the public onProgress). -/
def unsubscribeProgress (w : World) (i : PId) (cb : Nat) : World :=
  match getP w i with
  | none => w
  | some s =>
    setP w i { s with onProgressCallbacks := s.onProgressCallbacks.erase cb }

/-- Lines 309-315: reportProgress synchronously invokes every currently
registered progress listener; there is no status guard in the source.
The world is unchanged, so only the event list is returned. -/
def reportProgress (w : World) (i : PId) (percentage metadata : JSVal) : List Event :=
  match getP w i with
  | none => []
  | some s => s.onProgressCallbacks.map fun cb => Event.progressCb cb percentage metadata

/-- Iteration of a cancel-listener set (the two forEach loops of cancel,
lines 259-263), parameterized by the function that cancels another
promise so that the loop itself is structurally recursive.  A user
callback is recorded as an event; a cancelOther callback runs the library
closure reason => target.cancel(reason) or () => target.cancel(). -/
def runCancelCbs (doCancel : World → PId → JSVal → World × List Event) :
    List TCancelCallback → JSVal → World → World × List Event
  | [], _, w => (w, [])
  | TCancelCallback.user id :: rest, r, w =>
    let o := runCancelCbs doCancel rest r w
    (o.1, Event.cancelCb id r :: o.2)
  | TCancelCallback.cancelOther t passReason :: rest, r, w =>
    let o := doCancel w t (if passReason then r else JSVal.undef)
    let e := runCancelCbs doCancel rest r o.1
    (e.1, o.2 ++ e.2)

/-- Lines 265-266 of cancel: this._reject(_reason) settles the native
cell (first write wins) and this.disposeCallbacks() empties the
registries; the status field, already canceled, is untouched. -/
def settleNativeAndDispose (w : World) (i : PId) (r : JSVal) : World :=
  match getP w i with
  | none => w
  | some s3 =>
    setP w i
      (disposeCallbacks
        { s3 with native := nativeSettle s3.native (NativeResult.rejectedWith r) })

/-- Lines 251-269: cancel.  No-op unless pending; set status to canceled;
substitute the default reason; run own listeners then external listeners;
reject the native cell with the reason; dispose the registries; return
the promise itself (modeled by returning the world).  Fuel bounds the
nested cancellations performed by cancelOther listeners. -/
def cancel : Nat → World → PId → JSVal → World × List Event
  | 0, w, _, _ => (w, [])
  | Nat.succ fuel, w, i, reason =>
    match getP w i with
    | none => (w, [])
    | some s =>
      if s.status ≠ TPromiseStatus.pending then (w, [])
      else
        let r := defaultReason reason
        let w1 := setP w i { s with status := TPromiseStatus.canceled }
        let o := runCancelCbs (cancel fuel) s.ownCancelCallbacks r w1
        let e := runCancelCbs (cancel fuel) s.cancelCallbacks r o.1
        (settleNativeAndDispose e.1 i r, o.2 ++ e.2)

/-- Lines 322-346: createChildPromise.  A fresh pending promise is
appended; it aliases the progress registry of the parent (modeled by
copying, which the claims under verification cannot distinguish) and
registers, through its public onCancel, the closure that cancels the
parent with the forwarded reason.  The resolve and reject continuations
it returns are part of the asynchronous value wiring, which is modeled
by the per-settlement handler functions of the combinators. -/
def createChildPromise (w : World) (parent : PId) : World × PId :=
  let child := w.length
  let progressList :=
    match getP w parent with
    | some s => s.onProgressCallbacks
    | none => []
  let w1 := w ++ [{ newPromiseState with onProgressCallbacks := progressList }]
  let w2 := onCancel w1 child (TCancelCallback.cancelOther parent true)
  (w2, child)

/-- Input element of a combinator: an existing cancelable promise, or a
raw (non-thenable) value. -/
inductive CombInput where
  | cp (p : PId)
  | rawValue (v : JSVal)
deriving DecidableEq, Repr

/-- CancelablePromise.utils lines 142-157: toCancelablePromise returns an
already-cancelable source unchanged; a raw value is wrapped in a new
promise whose executor resolves immediately (so the wrapper is born
resolved, registries empty, native cell settled with the value). -/
def toCancelablePromise (w : World) (source : CombInput) : World × PId :=
  match source with
  | CombInput.cp p => (w, p)
  | CombInput.rawValue v =>
    (w ++ [{ newPromiseState with
              status := TPromiseStatus.resolved
              native := some (NativeResult.resolvedWith v) }],
     w.length)

/-- Loop body of race (lines 452-471): normalize each input, register
() => cancelable.cancel() on the parent own registry, and attach the
settlement handlers via then, which creates a chain child of the
normalized input. -/
def raceLoop (p : PId) : World → List CombInput → World
  | w, [] => w
  | w, v :: rest =>
    let n := toCancelablePromise w v
    let w2 := subscribeToOwnCancelEvent n.1 p (TCancelCallback.cancelOther n.2 false)
    let w3 := (createChildPromise w2 n.2).1
    raceLoop p w3 rest

/-- Lines 447-474: race constructs the parent promise and runs the loop
over the inputs inside its executor body. -/
def raceBuild (w : World) (values : List CombInput) : World × PId :=
  let p := w.length
  let w1 := w ++ [newPromiseState]
  (raceLoop p w1 values, p)

/-- Lines 461-470: the rejection handler race attaches to each normalized
child.  It fires (asynchronously) when the child native cell rejects with
the given reason: if the child status reads canceled the parent is
canceled with that reason, otherwise the parent is rejected. -/
def raceOnChildRejected (fuel : Nat) (w : World) (p c : PId) (reason : JSVal) :
    World × List Event :=
  match getP w c with
  | none => (w, [])
  | some s =>
    if s.status = TPromiseStatus.canceled then cancel fuel w p reason
    else (rejectWrapped w p reason, [])

/-- JS Map.set over an association list: updating a present key keeps its
original position (Map iteration order is by first insertion); a new key
is appended. -/
def mapSet {α : Type} (l : List (PId × α)) (k : PId) (v : α) : List (PId × α) :=
  match l with
  | [] => [(k, v)]
  | (k2, v2) :: rest => if k2 = k then (k, v) :: rest else (k2, v2) :: mapSet rest k v

/-- Keys of a JS Map after inserting every element of the list in order:
first-occurrence deduplication. -/
def insKey (acc : List PId) (c : PId) : List PId := if c ∈ acc then acc else acc ++ [c]

/-- First-occurrence deduplicated key list of a combinator input list. -/
def jsKeys (cs : List PId) : List PId := cs.foldl insKey []

/-- Record the allSettled handlers build for a settled child (lines
566-580): fulfilled with the native value, otherwise tagged canceled when
the child status reads canceled and rejected otherwise, with the native
rejection reason.  none for an unsettled child (its handlers have not
fired). -/
def recordFor (s : CPState) : Option SettledRecord :=
  match s.native with
  | some (NativeResult.resolvedWith v) => some (SettledRecord.fulfilled v)
  | some (NativeResult.rejectedWith r) =>
    some
      (if s.status = TPromiseStatus.canceled then SettledRecord.canceledRec r
       else SettledRecord.rejected r)
  | _ => none

/-- Combinator bookkeeping shared by all and allSettled: the parent id,
the results Map (keyed by normalized child identity), the completion
counter resultsLength and the input length promisesLength. -/
structure FanIn (α : Type) where
  parent : PId
  entries : List (PId × Option α)
  resultsLength : Nat
  promisesLength : Nat
deriving DecidableEq

/-- Loop body of allSettled (lines 556-591): normalize, seed the results
Map with null, register the parent-cancels-child closure, and attach
then + finally, each of which creates a chain child. -/
def allSettledLoop (p : PId) :
    World → List (PId × Option SettledRecord) → List CombInput →
      World × List (PId × Option SettledRecord)
  | w, entries, [] => (w, entries)
  | w, entries, v :: rest =>
    let n := toCancelablePromise w v
    let entries1 := mapSet entries n.2 none
    let w2 := subscribeToOwnCancelEvent n.1 p (TCancelCallback.cancelOther n.2 false)
    let g := createChildPromise w2 n.2
    let w4 := (createChildPromise g.1 g.2).1
    allSettledLoop p w4 entries1 rest

/-- Lines 538-593: allSettled constructs the parent promise and runs the
loop inside its executor body.  The executor ignores reject entirely. -/
def allSettledBuild (w : World) (values : List CombInput) :
    World × FanIn SettledRecord :=
  let p := w.length
  let w1 := w ++ [newPromiseState]
  let o := allSettledLoop p w1 [] values
  (o.1,
   { parent := p
     entries := o.2
     resultsLength := 0
     promisesLength := values.length })

/-- One firing of the then + finally pair allSettled attaches at one input
position, when the child at that position has settled: store the outcome
record under the child key, bump the counter, and resolve the parent with
the Map values (in first-insertion key order) when the counter reaches
the input length. -/
def allSettledStep (w : World) (a : FanIn SettledRecord) (c : PId) :
    World × FanIn SettledRecord :=
  match getP w c with
  | none => (w, a)
  | some s =>
    match recordFor s with
    | none => (w, a)
    | some rec =>
      let entries := mapSet a.entries c (some rec)
      let n := a.resultsLength + 1
      let a2 : FanIn SettledRecord :=
        { a with entries := entries, resultsLength := n }
      if n = a.promisesLength then
        (resolveWrappedRes w a.parent
          (NativeResult.resolvedWithRecords (entries.map Prod.snd)), a2)
      else (w, a2)

/-- Fire the allSettled handlers for the listed input positions, in the
order the corresponding children settled. -/
def allSettledRun (w : World) (a : FanIn SettledRecord) :
    List PId → World × FanIn SettledRecord
  | [] => (w, a)
  | c :: rest =>
    let o := allSettledStep w a c
    allSettledRun o.1 o.2 rest

/-- Loop body of all (lines 495-526): like allSettled but with a single
then call per input. -/
def allLoop (p : PId) :
    World → List (PId × Option JSVal) → List CombInput →
      World × List (PId × Option JSVal)
  | w, entries, [] => (w, entries)
  | w, entries, v :: rest =>
    let n := toCancelablePromise w v
    let entries1 := mapSet entries n.2 none
    let w2 := subscribeToOwnCancelEvent n.1 p (TCancelCallback.cancelOther n.2 false)
    let w3 := (createChildPromise w2 n.2).1
    allLoop p w3 entries1 rest

/-- Lines 480-529: all constructs the parent promise and runs the loop
inside its executor body. -/
def allBuild (w : World) (values : List CombInput) : World × FanIn JSVal :=
  let p := w.length
  let w1 := w ++ [newPromiseState]
  let o := allLoop p w1 [] values
  (o.1,
   { parent := p
     entries := o.2
     resultsLength := 0
     promisesLength := values.length })

/-- One firing of the fulfillment handler all attaches at one input
position (lines 504-513), when the child at that position has resolved:
bump the counter, store the value under the child key, and resolve the
parent with the Map values once the counter reaches the input length. -/
def allStep (w : World) (a : FanIn JSVal) (c : PId) : World × FanIn JSVal :=
  match getP w c with
  | none => (w, a)
  | some s =>
    match s.native with
    | some (NativeResult.resolvedWith v) =>
      let n := a.resultsLength + 1
      let entries := mapSet a.entries c (some v)
      let a2 : FanIn JSVal := { a with entries := entries, resultsLength := n }
      if n = a.promisesLength then
        (resolveWrappedRes w a.parent
          (NativeResult.resolvedWithArr (entries.map Prod.snd)), a2)
      else (w, a2)
    | _ => (w, a)

/-- Fire the all fulfillment handlers for the listed input positions, in
the order the corresponding children resolved. -/
def allRun (w : World) (a : FanIn JSVal) : List PId → World × FanIn JSVal
  | [] => (w, a)
  | c :: rest =>
    let o := allStep w a c
    allRun o.1 o.2 rest

/-
Basic world accessor lemmas.
-/

theorem length_setP (w : World) (i : PId) (s : CPState) :
    (setP w i s).length = w.length :=
  List.length_set w i s

theorem getP_lt {w : World} {i : PId} {s : CPState} (h : getP w i = some s) :
    i < w.length := by
  by_contra hn
  push_neg at hn
  rw [getP, List.getElem?_eq_none hn] at h
  exact Option.noConfusion h

theorem getP_setP_self {w : World} {i : PId} {s0 : CPState} (s : CPState)
    (h : getP w i = some s0) : getP (setP w i s) i = some s := by
  have hlt := getP_lt h
  show (w.set i s)[i]? = some s
  exact List.getElem?_set_self hlt

theorem getP_setP_ne {w : World} {i j : PId} (s : CPState) (h : i ≠ j) :
    getP (setP w i s) j = getP w j := by
  show (w.set i s)[j]? = w[j]?
  exact List.getElem?_set_ne h

theorem setP_self {w : World} {i : PId} {s : CPState} (h : getP w i = some s) :
    setP w i s = w := by
  show w.set i s = w
  induction w generalizing i with
  | nil => simp [getP] at h
  | cons a t ih =>
    cases i with
    | zero =>
      simp [getP] at h
      simp [h]
    | succ n =>
      simp [getP] at h
      simpa using ih (i := n) h

theorem getP_append_lt {w : World} (m : World) {i : PId} (h : i < w.length) :
    getP (w ++ m) i = getP w i := by
  show (w ++ m)[i]? = w[i]?
  rw [List.getElem?_append_left h]

theorem getP_append_self (w : World) (s : CPState) :
    getP (w ++ [s]) w.length = some s := by
  show (w ++ [s])[w.length]? = some s
  exact List.getElem?_concat_length w s

/-
Generic lemmas about the listener loop and cancel.
-/

theorem runCancelCbs_preserve {P : World → Prop}
    {d : World → PId → JSVal → World × List Event}
    (hdc : ∀ w t r, P w → P (d w t r).1) :
    ∀ (cbs : List TCancelCallback) (r : JSVal) (w : World),
      P w → P (runCancelCbs d cbs r w).1 := by
  intro cbs
  induction cbs with
  | nil => intro r w h; simpa [runCancelCbs] using h
  | cons cb rest ih =>
    intro r w h
    cases cb with
    | user id => simpa [runCancelCbs] using ih r w h
    | cancelOther t pr => simpa [runCancelCbs] using ih r _ (hdc w t _ h)

theorem cancel_noop {w : World} {i : PId} {s : CPState}
    (h : getP w i = some s) (hs : s.status ≠ TPromiseStatus.pending)
    (fuel : Nat) (r : JSVal) : cancel fuel w i r = (w, []) := by
  cases fuel with
  | zero => rfl
  | succ f => simp [cancel, h, hs]

theorem cancel_noop_none {w : World} {i : PId} (h : getP w i = none)
    (fuel : Nat) (r : JSVal) : cancel fuel w i r = (w, []) := by
  cases fuel with
  | zero => rfl
  | succ f => simp [cancel, h]

/-- Intermediate result of the pending branch of cancel, named to make the
unfolding lemma readable. -/
def cancelPendingResult (f : Nat) (w : World) (j : PId) (s : CPState) (reason : JSVal) :
    World × List Event :=
  let r := defaultReason reason
  let w1 := setP w j { s with status := TPromiseStatus.canceled }
  let o := runCancelCbs (cancel f) s.ownCancelCallbacks r w1
  let e := runCancelCbs (cancel f) s.cancelCallbacks r o.1
  (settleNativeAndDispose e.1 j r, o.2 ++ e.2)

theorem cancel_pending_unfold {w : World} {j : PId} {s : CPState}
    (h : getP w j = some s) (hp : s.status = TPromiseStatus.pending)
    (f : Nat) (reason : JSVal) :
    cancel (f + 1) w j reason = cancelPendingResult f w j s reason := by
  show cancel (Nat.succ f) w j reason = cancelPendingResult f w j s reason
  simp [cancel, h, hp, cancelPendingResult]

theorem settleNAD_getP_ne {w : World} {j i : PId} (h : j ≠ i) (r : JSVal) :
    getP (settleNativeAndDispose w j r) i = getP w i := by
  unfold settleNativeAndDispose
  rcases hj : getP w j with _ | s3
  · rfl
  · exact getP_setP_ne _ h

theorem settleNAD_length (w : World) (j : PId) (r : JSVal) :
    (settleNativeAndDispose w j r).length = w.length := by
  unfold settleNativeAndDispose
  rcases hj : getP w j with _ | s3
  · rfl
  · exact length_setP ..

/-- A promise that has already left pending is untouched, in full, by any
cancellation anywhere in the world: cancel only writes to promises it
transitions out of pending. -/
theorem cancel_untouched {s : CPState} (hs : s.status ≠ TPromiseStatus.pending) :
    ∀ (fuel : Nat) (w : World) (j : PId) (r : JSVal) (i : PId),
      getP w i = some s → getP ((cancel fuel w j r).1) i = some s := by
  intro fuel
  induction fuel with
  | zero => intro w j r i h; simpa [cancel] using h
  | succ f ih =>
    intro w j r i h
    rcases hj : getP w j with _ | sj
    · rw [cancel_noop_none hj]; exact h
    · by_cases hpend : sj.status = TPromiseStatus.pending
      · by_cases hij : j = i
        · subst hij; rw [h] at hj; cases hj; exact absurd hpend hs
        · rw [cancel_pending_unfold hj hpend]
          unfold cancelPendingResult
          have h1 : getP (setP w j { sj with status := TPromiseStatus.canceled }) i = some s := by
            rw [getP_setP_ne _ hij]; exact h
          have h2 := runCancelCbs_preserve
            (P := fun w' => getP w' i = some s)
            (fun w' t r' hp' => ih w' t r' i hp')
            sj.ownCancelCallbacks (defaultReason r) _ h1
          have h3 := runCancelCbs_preserve
            (P := fun w' => getP w' i = some s)
            (fun w' t r' hp' => ih w' t r' i hp')
            sj.cancelCallbacks (defaultReason r) _ h2
          simpa [settleNAD_getP_ne hij] using h3
      · rw [cancel_noop hj hpend]; exact h

theorem length_cancel :
    ∀ (fuel : Nat) (w : World) (j : PId) (r : JSVal),
      ((cancel fuel w j r).1).length = w.length := by
  intro fuel
  induction fuel with
  | zero => intro w j r; simp [cancel]
  | succ f ih =>
    intro w j r
    rcases hj : getP w j with _ | sj
    · rw [cancel_noop_none hj]
    · by_cases hpend : sj.status = TPromiseStatus.pending
      · rw [cancel_pending_unfold hj hpend]
        unfold cancelPendingResult
        have h1 : (setP w j { sj with status := TPromiseStatus.canceled }).length = w.length :=
          length_setP ..
        have h2 := runCancelCbs_preserve
          (P := fun w' => w'.length = w.length) (d := cancel f)
          (fun w' t r' hp' => by
            show ((cancel f w' t r').1).length = w.length
            rw [ih w' t r']; exact hp')
          sj.ownCancelCallbacks (defaultReason r) _ h1
        have h3 := runCancelCbs_preserve
          (P := fun w' => w'.length = w.length) (d := cancel f)
          (fun w' t r' hp' => by
            show ((cancel f w' t r').1).length = w.length
            rw [ih w' t r']; exact hp')
          sj.cancelCallbacks (defaultReason r) _ h2
        simpa [settleNAD_length] using h3
      · rw [cancel_noop hj hpend]

/-- Full description of the canceling promise itself after a pending
cancel: status canceled, native cell rejected with the defaulted reason
(first write wins), registries disposed. -/
theorem cancel_pending_getP_self {w : World} {i : PId} {s : CPState}
    (h : getP w i = some s) (hp : s.status = TPromiseStatus.pending)
    (f : Nat) (reason : JSVal) :
    getP ((cancel (f + 1) w i reason).1) i =
      some (disposeCallbacks
        { s with
          status := TPromiseStatus.canceled
          native := nativeSettle s.native
            (NativeResult.rejectedWith (defaultReason reason)) }) := by
  rw [cancel_pending_unfold h hp]
  unfold cancelPendingResult
  have hs1 : ({ s with status := TPromiseStatus.canceled } : CPState).status ≠
      TPromiseStatus.pending := by simp
  have h1 : getP (setP w i { s with status := TPromiseStatus.canceled }) i =
      some { s with status := TPromiseStatus.canceled } := getP_setP_self _ h
  have h2 := runCancelCbs_preserve
    (P := fun w' => getP w' i = some { s with status := TPromiseStatus.canceled })
    (fun w' t r' hp' => cancel_untouched hs1 f w' t r' i hp')
    s.ownCancelCallbacks (defaultReason reason) _ h1
  have h3 := runCancelCbs_preserve
    (P := fun w' => getP w' i = some { s with status := TPromiseStatus.canceled })
    (fun w' t r' hp' => cancel_untouched hs1 f w' t r' i hp')
    s.cancelCallbacks (defaultReason reason) _ h2
  show getP (settleNativeAndDispose _ i _) i = _
  unfold settleNativeAndDispose
  rw [h3]
  exact getP_setP_self _ h3

/-- Canceling a pending promise makes its status canceled. -/
theorem cancel_pending_status {w : World} {i : PId} {s : CPState}
    (h : getP w i = some s) (hp : s.status = TPromiseStatus.pending)
    (f : Nat) (reason : JSVal) :
    statusOf ((cancel (f + 1) w i reason).1) i = some TPromiseStatus.canceled := by
  rw [statusOf, cancel_pending_getP_self h hp f reason]
  rfl

/-
Lemmas about registries that hold only opaque user callbacks.
-/

/-- Events produced by a registry when it is fanned out with reason r:
one event per user callback, in registry order. -/
def userEvents (cbs : List TCancelCallback) (r : JSVal) : List Event :=
  cbs.filterMap fun cb =>
    match cb with
    | TCancelCallback.user id => some (Event.cancelCb id r)
    | TCancelCallback.cancelOther _ _ => none

/-- True when every callback of the registry is an opaque user callback
(no library-registered cancelOther closure). -/
def cbsUser (l : List TCancelCallback) : Bool :=
  l.all fun cb =>
    match cb with
    | TCancelCallback.user _ => true
    | TCancelCallback.cancelOther _ _ => false

theorem runCancelCbs_user {dc : World → PId → JSVal → World × List Event}
    {cbs : List TCancelCallback} (hu : cbsUser cbs = true) (r : JSVal) (w : World) :
    runCancelCbs dc cbs r w = (w, userEvents cbs r) := by
  induction cbs with
  | nil => simp [runCancelCbs, userEvents]
  | cons cb rest ih =>
    cases cb with
    | user id =>
      have hr : cbsUser rest = true := by simpa [cbsUser] using hu
      simp only [runCancelCbs, ih hr, userEvents, List.filterMap_cons]
    | cancelOther t pr => simp [cbsUser] at hu

/-- Canceling a pending promise whose registries hold only user callbacks
touches exactly that promise (set status canceled, reject the native
cell, dispose) and fires the own listeners then the external listeners,
in insertion order, with the defaulted reason. -/
theorem cancel_user_only {w : World} {i : PId} {s : CPState}
    (h : getP w i = some s) (hp : s.status = TPromiseStatus.pending)
    (ho : cbsUser s.ownCancelCallbacks = true)
    (he : cbsUser s.cancelCallbacks = true) (f : Nat) (reason : JSVal) :
    cancel (f + 1) w i reason =
      (setP w i
        (disposeCallbacks
          { s with
            status := TPromiseStatus.canceled
            native := nativeSettle s.native
              (NativeResult.rejectedWith (defaultReason reason)) }),
       userEvents s.ownCancelCallbacks (defaultReason reason) ++
         userEvents s.cancelCallbacks (defaultReason reason)) := by
  have h1 : getP (setP w i { s with status := TPromiseStatus.canceled }) i =
      some { s with status := TPromiseStatus.canceled } := getP_setP_self _ h
  simp only [setP] at h1
  rw [cancel_pending_unfold h hp]
  simp only [cancelPendingResult, runCancelCbs_user ho, runCancelCbs_user he,
    settleNativeAndDispose, setP, h1, List.set_set]

/-
Trace lemmas: cancellation reasons are never undefined, and a user
callback absent from every registry never appears in a trace.
-/

/-- Event carries a non-undefined cancellation reason (trivially true for
progress events). -/
def cancelReasonOk : Event → Bool
  | Event.cancelCb _ r => r != JSVal.undef
  | Event.progressCb _ _ _ => true

theorem defaultReason_ne_undef (r : JSVal) : defaultReason r ≠ JSVal.undef := by
  unfold defaultReason
  by_cases h : r = JSVal.undef <;> simp [h]

theorem runCancelCbs_trace_reasonOk
    {dc : World → PId → JSVal → World × List Event}
    (hdc : ∀ w t r, ∀ e ∈ (dc w t r).2, cancelReasonOk e = true) :
    ∀ (cbs : List TCancelCallback) (r : JSVal), r ≠ JSVal.undef →
      ∀ (w : World), ∀ e ∈ (runCancelCbs dc cbs r w).2, cancelReasonOk e = true := by
  intro cbs
  induction cbs with
  | nil => intro r hr w e he; simp [runCancelCbs] at he
  | cons cb rest ih =>
    intro r hr w e he
    cases cb with
    | user id =>
      simp only [runCancelCbs] at he
      rcases List.mem_cons.mp he with h1 | h2
      · subst h1; simp [cancelReasonOk, hr]
      · exact ih r hr w e h2
    | cancelOther t pr =>
      simp only [runCancelCbs] at he
      rcases List.mem_append.mp he with h1 | h2
      · exact hdc _ _ _ e h1
      · exact ih r hr _ e h2

theorem cancel_trace_reasonOk :
    ∀ (fuel : Nat) (w : World) (i : PId) (r : JSVal),
      ∀ e ∈ (cancel fuel w i r).2, cancelReasonOk e = true := by
  intro fuel
  induction fuel with
  | zero => intro w i r e he; simp [cancel] at he
  | succ f ih =>
    intro w i r e he
    rcases hi : getP w i with _ | s
    · rw [cancel_noop_none hi] at he; simp at he
    · by_cases hp : s.status = TPromiseStatus.pending
      · rw [cancel_pending_unfold hi hp] at he
        simp only [cancelPendingResult] at he
        have hd : defaultReason r ≠ JSVal.undef := defaultReason_ne_undef r
        rcases List.mem_append.mp he with h1 | h2
        · exact runCancelCbs_trace_reasonOk (fun w2 t r2 => ih w2 t r2) _ _ hd _ e h1
        · exact runCancelCbs_trace_reasonOk (fun w2 t r2 => ih w2 t r2) _ _ hd _ e h2
      · rw [cancel_noop hi hp] at he; simp at he

/-- User callback id occurs in the registry. -/
def idInCbs (id : Nat) (l : List TCancelCallback) : Bool :=
  l.any fun cb =>
    match cb with
    | TCancelCallback.user x => x == id
    | TCancelCallback.cancelOther _ _ => false

/-- User callback id occurs in some cancel registry of the world. -/
def idInWorld (id : Nat) (w : World) : Bool :=
  w.any fun s => idInCbs id s.ownCancelCallbacks || idInCbs id s.cancelCallbacks

theorem idInWorld_false_getP {id : Nat} {w : World} {i : PId} {s : CPState}
    (hw : idInWorld id w = false) (h : getP w i = some s) :
    idInCbs id s.ownCancelCallbacks = false ∧ idInCbs id s.cancelCallbacks = false := by
  have hmem : s ∈ w := List.getElem?_mem h
  simp only [idInWorld, List.any_eq_false] at hw
  have := hw s hmem
  simpa using this

theorem idInWorld_setP_false {id : Nat} {w : World} {i : PId} {s : CPState}
    (hw : idInWorld id w = false)
    (ho : idInCbs id s.ownCancelCallbacks = false)
    (he : idInCbs id s.cancelCallbacks = false) :
    idInWorld id (setP w i s) = false := by
  simp only [idInWorld, List.any_eq_false] at hw ⊢
  intro x hx
  rcases List.mem_or_eq_of_mem_set hx with h1 | h2
  · exact hw x h1
  · subst h2; simp [ho, he]

theorem settleNAD_idIn_false {id : Nat} {w : World} (j : PId) (r : JSVal)
    (hw : idInWorld id w = false) :
    idInWorld id (settleNativeAndDispose w j r) = false := by
  unfold settleNativeAndDispose
  rcases hj : getP w j with _ | s3
  · exact hw
  · exact idInWorld_setP_false hw (by simp [idInCbs, disposeCallbacks]) (by simp [idInCbs, disposeCallbacks])

theorem runCancelCbs_fresh {id : Nat}
    {dc : World → PId → JSVal → World × List Event}
    (hdc : ∀ w t r, idInWorld id w = false →
      idInWorld id (dc w t r).1 = false ∧
        ∀ r2, Event.cancelCb id r2 ∉ (dc w t r).2) :
    ∀ (cbs : List TCancelCallback) (r : JSVal) (w : World),
      idInCbs id cbs = false → idInWorld id w = false →
      idInWorld id (runCancelCbs dc cbs r w).1 = false ∧
        ∀ r2, Event.cancelCb id r2 ∉ (runCancelCbs dc cbs r w).2 := by
  intro cbs
  induction cbs with
  | nil => intro r w _ hw; exact ⟨by simpa [runCancelCbs] using hw, by simp [runCancelCbs]⟩
  | cons cb rest ih =>
    intro r w hc hw
    cases cb with
    | user x =>
      have hx : (x == id) = false ∧ idInCbs id rest = false := by
        simpa [idInCbs] using hc
      have hrest := ih r w hx.2 hw
      constructor
      · simpa [runCancelCbs] using hrest.1
      · intro r2 hmem
        simp only [runCancelCbs, List.mem_cons] at hmem
        rcases hmem with h1 | h2
        · have : x = id := by cases h1; rfl
          simp [this] at hx
        · exact hrest.2 r2 h2
    | cancelOther t pr =>
      have hc2 : idInCbs id rest = false := by simpa [idInCbs] using hc
      have hstep := hdc w t (if pr then r else JSVal.undef) hw
      have hrest := ih r _ hc2 hstep.1
      constructor
      · simpa [runCancelCbs] using hrest.1
      · intro r2 hmem
        simp only [runCancelCbs, List.mem_append] at hmem
        rcases hmem with h1 | h2
        · exact hstep.2 r2 h1
        · exact hrest.2 r2 h2

/-- A user callback id registered in no cancel registry anywhere stays
unregistered through any cancellation, and never appears in the trace:
cancel never invokes a listener that was not registered before the call. -/
theorem cancel_fresh {id : Nat} :
    ∀ (fuel : Nat) (w : World) (i : PId) (r : JSVal),
      idInWorld id w = false →
      idInWorld id (cancel fuel w i r).1 = false ∧
        ∀ r2, Event.cancelCb id r2 ∉ (cancel fuel w i r).2 := by
  intro fuel
  induction fuel with
  | zero => intro w i r hw; exact ⟨by simpa [cancel] using hw, by simp [cancel]⟩
  | succ f ih =>
    intro w i r hw
    rcases hi : getP w i with _ | s
    · rw [cancel_noop_none hi]; exact ⟨hw, by simp⟩
    · by_cases hp : s.status = TPromiseStatus.pending
      · rw [cancel_pending_unfold hi hp]
        simp only [cancelPendingResult]
        have hreg := idInWorld_false_getP hw hi
        have hw1 : idInWorld id (setP w i { s with status := TPromiseStatus.canceled }) = false :=
          idInWorld_setP_false hw (by simpa using hreg.1) (by simpa using hreg.2)
        have hown := runCancelCbs_fresh (fun w2 t r2 => ih w2 t r2)
          s.ownCancelCallbacks (defaultReason r) _ hreg.1 hw1
        have hext := runCancelCbs_fresh (fun w2 t r2 => ih w2 t r2)
          s.cancelCallbacks (defaultReason r) _ hreg.2 hown.1
        constructor
        · exact settleNAD_idIn_false i (defaultReason r) hext.1
        · intro r2 hmem
          rcases List.mem_append.mp hmem with h1 | h2
          · exact hown.2 r2 h1
          · exact hext.2 r2 h2
      · rw [cancel_noop hi hp]; exact ⟨hw, by simp⟩

/-
Helper lemmas for the settlement and subscription operations.
-/

theorem settleWrapped_getP_self {w : World} {i : PId} {s : CPState}
    (h : getP w i = some s) (st : TPromiseStatus) (res : NativeResult) :
    getP (settleWrapped w i st res) i =
      some (disposeCallbacks { s with status := st, native := nativeSettle s.native res }) := by
  unfold settleWrapped
  rw [h]
  exact getP_setP_self _ h

theorem onCancel_getP_self {w : World} {i : PId} {s : CPState}
    (h : getP w i = some s) (cb : TCancelCallback) :
    getP (onCancel w i cb) i =
      some { s with cancelCallbacks := setAdd s.cancelCallbacks cb } := by
  unfold onCancel
  rw [h]
  exact getP_setP_self _ h

theorem onProgress_getP_self {w : World} {i : PId} {s : CPState}
    (h : getP w i = some s) (cb : Nat) :
    getP (onProgress w i cb) i =
      some { s with onProgressCallbacks := setAdd s.onProgressCallbacks cb } := by
  unfold onProgress
  rw [h]
  exact getP_setP_self _ h

theorem subscribeOwn_getP_self {w : World} {i : PId} {s : CPState}
    (h : getP w i = some s) (cb : TCancelCallback) :
    getP (subscribeToOwnCancelEvent w i cb) i =
      some { s with ownCancelCallbacks := setAdd s.ownCancelCallbacks cb } := by
  unfold subscribeToOwnCancelEvent
  rw [h]
  exact getP_setP_self _ h

/-- Concrete one-promise world used by witnesses: a single pending promise
with two own listeners and two external listeners. -/
def fixtureListeners : World :=
  [{ status := TPromiseStatus.pending
     ownCancelCallbacks := [TCancelCallback.user 1, TCancelCallback.user 2]
     cancelCallbacks := [TCancelCallback.user 3, TCancelCallback.user 4]
     onProgressCallbacks := []
     native := none }]

/-
Claim C1.  The source has no pending guard in the wrapped resolve and
reject (lines 148-160): they overwrite the status field even after the
computation settled or was canceled, so the status is not monotonic.  The
cancel method is guarded (line 253) and the native cell is single
assignment, so cancel after settlement is a no-op and the settled value
never changes.
-/

/-- Claim C1 as stated is false: a canceled computation on which resolve
is called changes its status field from canceled to resolved (the claim
says a settlement attempt after the first changes neither the status nor
the settled value). -/
theorem claim1_counterexample :
    statusOf ((cancel 1 [newPromiseState] 0 (JSVal.raw 1)).1) 0 =
      some TPromiseStatus.canceled ∧
    statusOf (resolveWrapped ((cancel 1 [newPromiseState] 0 (JSVal.raw 1)).1) 0 (JSVal.raw 2)) 0 =
      some TPromiseStatus.resolved ∧
    nativeOf (resolveWrapped ((cancel 1 [newPromiseState] 0 (JSVal.raw 1)).1) 0 (JSVal.raw 2)) 0 =
      some (NativeResult.rejectedWith (JSVal.raw 1)) := by decide

/-- Claim C1 amended: every settlement attempt after the first is a no-op
for cancel (which returns the computation unchanged) and for the
underlying settled value (the native cell keeps its first settlement),
but resolve and reject called after settlement do overwrite the status
field (to resolved or rejected respectively) while leaving the settled
value unchanged. -/
theorem claim1_theorem (w : World) (i : PId) (s : CPState) (nr : NativeResult)
    (h : getP w i = some s) (hs : s.status ≠ TPromiseStatus.pending)
    (hn : s.native = some nr) (fuel : Nat) (r v v2 : JSVal) :
    cancel fuel w i r = (w, []) ∧
    nativeOf (resolveWrapped w i v) i = some nr ∧
    nativeOf (rejectWrapped w i v2) i = some nr ∧
    statusOf (resolveWrapped w i v) i = some TPromiseStatus.resolved ∧
    statusOf (rejectWrapped w i v2) i = some TPromiseStatus.rejected := by
  refine ⟨cancel_noop h hs fuel r, ?_, ?_, ?_, ?_⟩
  · unfold nativeOf resolveWrapped
    rw [settleWrapped_getP_self h]
    simp [disposeCallbacks, nativeSettle, hn]
  · unfold nativeOf rejectWrapped
    rw [settleWrapped_getP_self h]
    simp [disposeCallbacks, nativeSettle, hn]
  · unfold statusOf resolveWrapped
    rw [settleWrapped_getP_self h]
    simp [disposeCallbacks]
  · unfold statusOf rejectWrapped
    rw [settleWrapped_getP_self h]
    simp [disposeCallbacks]

/-- Concrete one-promise world holding an already-canceled promise. -/
def fixtureCanceled : CPState :=
  { newPromiseState with
      status := TPromiseStatus.canceled
      native := some (NativeResult.rejectedWith (JSVal.raw 1)) }

/-- Witness for claim1_theorem at a concrete canceled promise. -/
theorem claim1_witness :
    cancel 3 [fixtureCanceled] 0 (JSVal.raw 9) = ([fixtureCanceled], []) ∧
    nativeOf (resolveWrapped [fixtureCanceled] 0 (JSVal.raw 2)) 0 =
      some (NativeResult.rejectedWith (JSVal.raw 1)) ∧
    nativeOf (rejectWrapped [fixtureCanceled] 0 (JSVal.raw 3)) 0 =
      some (NativeResult.rejectedWith (JSVal.raw 1)) ∧
    statusOf (resolveWrapped [fixtureCanceled] 0 (JSVal.raw 2)) 0 =
      some TPromiseStatus.resolved ∧
    statusOf (rejectWrapped [fixtureCanceled] 0 (JSVal.raw 3)) 0 =
      some TPromiseStatus.rejected :=
  claim1_theorem [fixtureCanceled] 0 fixtureCanceled
    (NativeResult.rejectedWith (JSVal.raw 1))
    rfl (by decide) rfl 3 (JSVal.raw 9) (JSVal.raw 2) (JSVal.raw 3)

/-
Claim C3.  cancel is guarded by the pending check (line 253), so the
second of two cancel calls finds a canceled status and returns the
promise unchanged with no listener invocation.
-/

/-- Claim C3: calling cancel twice is equivalent to calling it once; the
status change and the listener invocations happen only on the first call,
and a cancel on the resulting non-pending computation is a no-op that
leaves the world unchanged and fires nothing. -/
theorem claim3_theorem (w : World) (i : PId) (s : CPState)
    (h : getP w i = some s) (hp : s.status = TPromiseStatus.pending)
    (f f2 : Nat) (r r2 : JSVal) :
    statusOf ((cancel (f + 1) w i r).1) i = some TPromiseStatus.canceled ∧
    cancel f2 ((cancel (f + 1) w i r).1) i r2 = ((cancel (f + 1) w i r).1, []) := by
  refine ⟨cancel_pending_status h hp f r, ?_⟩
  exact cancel_noop (cancel_pending_getP_self h hp f r) (by simp [disposeCallbacks]) f2 r2

/-- Witness for claim3_theorem on a pending promise with listeners. -/
theorem claim3_witness :
    statusOf ((cancel 1 fixtureListeners 0 (JSVal.raw 1)).1) 0 =
      some TPromiseStatus.canceled ∧
    cancel 7 ((cancel 1 fixtureListeners 0 (JSVal.raw 1)).1) 0 (JSVal.raw 2) =
      ((cancel 1 fixtureListeners 0 (JSVal.raw 1)).1, []) :=
  claim3_theorem fixtureListeners 0 _ rfl rfl 0 7 (JSVal.raw 1) (JSVal.raw 2)

/-
Claim C7.  In cancel, the own registry is fanned out first (line 260) and
the external registry second (line 263); JS Set forEach iterates in
insertion order, and every listener receives the defaulted reason.
-/

/-- Claim C7: when cancel fires on a pending computation whose listeners
are all subscriber callbacks, the trace is exactly the own listeners in
insertion order followed by the external listeners in insertion order,
each invoked with the (defaulted) cancellation reason. -/
theorem claim7_theorem (w : World) (i : PId) (s : CPState)
    (h : getP w i = some s) (hp : s.status = TPromiseStatus.pending)
    (ho : cbsUser s.ownCancelCallbacks = true)
    (he : cbsUser s.cancelCallbacks = true) (f : Nat) (reason : JSVal) :
    (cancel (f + 1) w i reason).2 =
      userEvents s.ownCancelCallbacks (defaultReason reason) ++
        userEvents s.cancelCallbacks (defaultReason reason) := by
  rw [cancel_user_only h hp ho he f reason]

/-- Witness for claim7_theorem: two own and two external listeners fire
in registration order, owns first, with the given reason. -/
theorem claim7_witness :
    (cancel 1 fixtureListeners 0 (JSVal.raw 5)).2 =
      userEvents [TCancelCallback.user 1, TCancelCallback.user 2] (defaultReason (JSVal.raw 5)) ++
        userEvents [TCancelCallback.user 3, TCancelCallback.user 4] (defaultReason (JSVal.raw 5)) :=
  claim7_theorem fixtureListeners 0 _ rfl rfl rfl rfl 0 (JSVal.raw 5)

/-
Claim C9.  Line 257 substitutes new Error Promise canceled when the
reason argument is undefined, before any listener or the native rejection
sees it.
-/

/-- Claim C9: canceling a pending computation with the reason omitted
(undefined) rejects the native cell with the default canceled error
object, and no listener invoked during the cancellation, at any depth,
receives an undefined reason. -/
theorem claim9_theorem (w : World) (i : PId) (s : CPState)
    (h : getP w i = some s) (hp : s.status = TPromiseStatus.pending)
    (hn : s.native = none) (f : Nat) :
    nativeOf ((cancel (f + 1) w i JSVal.undef).1) i =
      some (NativeResult.rejectedWith JSVal.errPromiseCanceled) ∧
    ∀ e ∈ (cancel (f + 1) w i JSVal.undef).2, cancelReasonOk e = true := by
  constructor
  · unfold nativeOf
    rw [cancel_pending_getP_self h hp f JSVal.undef]
    simp [disposeCallbacks, nativeSettle, hn, defaultReason]
  · exact fun e he => cancel_trace_reasonOk (f + 1) w i JSVal.undef e he

/-- Witness for claim9_theorem on the listener fixture. -/
theorem claim9_witness :
    nativeOf ((cancel 1 fixtureListeners 0 JSVal.undef).1) 0 =
      some (NativeResult.rejectedWith JSVal.errPromiseCanceled) ∧
    ∀ e ∈ (cancel 1 fixtureListeners 0 JSVal.undef).2, cancelReasonOk e = true :=
  claim9_theorem fixtureListeners 0 _ rfl rfl rfl 0

/-
Claim C6.  Settlement (the wrapped resolve and reject, lines 149-160, and
cancel, line 266) disposes all three registries.  Cancel listeners added
afterwards can never fire because cancel is guarded on pending.  But
reportProgress (lines 309-315) has no status guard and the public
onProgress has no guard either, so a progress listener added after
settlement is invoked by a later reportProgress call.
-/

/-- Registries of promise i are all empty. -/
def regsCleared (w : World) (i : PId) : Prop :=
  ∀ s2, getP w i = some s2 →
    s2.ownCancelCallbacks = [] ∧ s2.cancelCallbacks = [] ∧ s2.onProgressCallbacks = []

/-- Claim C6 as stated is false: after a promise resolves, registering a
progress listener and calling reportProgress invokes that listener (the
claim says a progress listener added after settlement is never invoked,
including by subsequent reportProgress calls). -/
theorem claim6_counterexample :
    reportProgress
        (onProgress (resolveWrapped [newPromiseState] 0 (JSVal.raw 1)) 0 7)
        0 (JSVal.raw 50) JSVal.undef =
      [Event.progressCb 7 (JSVal.raw 50) JSVal.undef] := by decide

/-- Claim C6 amended: all three listener registries are cleared upon every
settlement (resolve, reject, or cancel of a pending computation), and a
cancel listener added after settlement is never invoked (cancel on a
non-pending computation fires nothing); however a progress listener added
after settlement IS invoked by a subsequent reportProgress call, because
neither onProgress nor reportProgress checks the status. -/
theorem claim6_theorem (w : World) (i : PId) (s : CPState)
    (h : getP w i = some s) (hp : s.status = TPromiseStatus.pending)
    (f f2 : Nat) (v r r2 : JSVal) (cb : TCancelCallback) (pid : Nat)
    (pct meta : JSVal) :
    regsCleared (resolveWrapped w i v) i ∧
    regsCleared (rejectWrapped w i r) i ∧
    regsCleared ((cancel (f + 1) w i r).1) i ∧
    (cancel f2 (onCancel ((cancel (f + 1) w i r).1) i cb) i r2) =
      (onCancel ((cancel (f + 1) w i r).1) i cb, []) ∧
    reportProgress (onProgress ((cancel (f + 1) w i r).1) i pid) i pct meta =
      [Event.progressCb pid pct meta] := by
  have hc := cancel_pending_getP_self h hp f r
  refine ⟨?_, ?_, ?_, ?_, ?_⟩
  · intro s2 h2
    unfold resolveWrapped at h2
    rw [settleWrapped_getP_self h] at h2
    cases h2
    simp [disposeCallbacks]
  · intro s2 h2
    unfold rejectWrapped at h2
    rw [settleWrapped_getP_self h] at h2
    cases h2
    simp [disposeCallbacks]
  · intro s2 h2
    rw [hc] at h2
    cases h2
    simp [disposeCallbacks]
  · have h3 := onCancel_getP_self hc cb
    exact cancel_noop h3 (by simp [disposeCallbacks]) f2 r2
  · have h3 := onProgress_getP_self hc pid
    unfold reportProgress
    rw [h3]
    simp [disposeCallbacks, setAdd]

/-- Witness for claim6_theorem on the listener fixture. -/
theorem claim6_witness :
    regsCleared (resolveWrapped fixtureListeners 0 (JSVal.raw 1)) 0 ∧
    regsCleared (rejectWrapped fixtureListeners 0 (JSVal.raw 3)) 0 ∧
    regsCleared ((cancel 1 fixtureListeners 0 (JSVal.raw 3)).1) 0 ∧
    (cancel 4 (onCancel ((cancel 1 fixtureListeners 0 (JSVal.raw 3)).1) 0
        (TCancelCallback.user 9)) 0 (JSVal.raw 4)) =
      (onCancel ((cancel 1 fixtureListeners 0 (JSVal.raw 3)).1) 0
        (TCancelCallback.user 9), []) ∧
    reportProgress (onProgress ((cancel 1 fixtureListeners 0 (JSVal.raw 3)).1) 0 7) 0
        (JSVal.raw 50) JSVal.undef =
      [Event.progressCb 7 (JSVal.raw 50) JSVal.undef] :=
  claim6_theorem fixtureListeners 0 _ rfl rfl 0 4 (JSVal.raw 1) (JSVal.raw 3)
    (JSVal.raw 4) (TCancelCallback.user 9) 7 (JSVal.raw 50) JSVal.undef

/-
Claim C8.  The utilities onCancel (subscribeToOwnCancelEvent, lines
236-244) and onProgress (constructor lines 168-174) add the callback to
the respective registry and return a closure that deletes it again.  The
registries live behind mutable fields that settlement replaces with fresh
empty sets, so a late unsubscribe deletes from an empty registry and
changes nothing.
-/

/-- Claim C8: onCancel and onProgress register the callback into the
respective registry, and the returned unsubscribe closure removes exactly
that callback (restoring the previous world when the callback was fresh);
a cancel listener unsubscribed before cancellation is never invoked; and
unsubscribing after settlement (registries already cleared) is a safe
no-op. -/
theorem claim8_theorem (w : World) (i j : PId) (s : CPState) (id pid : Nat)
    (h : getP w i = some s)
    (hfresh : TCancelCallback.user id ∉ s.ownCancelCallbacks)
    (hid : idInWorld id w = false)
    (hpf : pid ∉ s.onProgressCallbacks)
    (fuel : Nat) (r : JSVal) :
    getP (subscribeToOwnCancelEvent w i (TCancelCallback.user id)) i =
      some { s with ownCancelCallbacks :=
        s.ownCancelCallbacks ++ [TCancelCallback.user id] } ∧
    unsubscribeOwnCancel (subscribeToOwnCancelEvent w i (TCancelCallback.user id)) i
      (TCancelCallback.user id) = w ∧
    (∀ r2, Event.cancelCb id r2 ∉
      (cancel fuel
        (unsubscribeOwnCancel (subscribeToOwnCancelEvent w i (TCancelCallback.user id)) i
          (TCancelCallback.user id)) j r).2) ∧
    getP (onProgress w i pid) i =
      some { s with onProgressCallbacks := s.onProgressCallbacks ++ [pid] } ∧
    unsubscribeProgress (onProgress w i pid) i pid = w ∧
    (∀ w2 i2 s3, getP w2 i2 = some s3 → s3.ownCancelCallbacks = [] →
      unsubscribeOwnCancel w2 i2 (TCancelCallback.user id) = w2) ∧
    (∀ w2 i2 s3, getP w2 i2 = some s3 → s3.onProgressCallbacks = [] →
      unsubscribeProgress w2 i2 pid = w2) := by
  have hsubW : subscribeToOwnCancelEvent w i (TCancelCallback.user id) =
      setP w i { s with ownCancelCallbacks :=
        s.ownCancelCallbacks ++ [TCancelCallback.user id] } := by
    unfold subscribeToOwnCancelEvent
    rw [h]
    simp [setAdd, hfresh]
  have hsub : getP (subscribeToOwnCancelEvent w i (TCancelCallback.user id)) i =
      some { s with ownCancelCallbacks :=
        s.ownCancelCallbacks ++ [TCancelCallback.user id] } := by
    rw [subscribeOwn_getP_self h]
    simp [setAdd, hfresh]
  have herase : (s.ownCancelCallbacks ++ [TCancelCallback.user id]).erase
      (TCancelCallback.user id) = s.ownCancelCallbacks := by
    rw [List.erase_append_right _ hfresh]
    simp
  have hunsub : unsubscribeOwnCancel (subscribeToOwnCancelEvent w i (TCancelCallback.user id)) i
      (TCancelCallback.user id) = w := by
    unfold unsubscribeOwnCancel
    rw [hsub, hsubW]
    simp only [setP, List.set_set, herase]
    exact setP_self h
  have hprogW : onProgress w i pid =
      setP w i { s with onProgressCallbacks := s.onProgressCallbacks ++ [pid] } := by
    unfold onProgress
    rw [h]
    simp [setAdd, hpf]
  have hprog : getP (onProgress w i pid) i =
      some { s with onProgressCallbacks := s.onProgressCallbacks ++ [pid] } := by
    rw [onProgress_getP_self h]
    simp [setAdd, hpf]
  have hperase : (s.onProgressCallbacks ++ [pid]).erase pid = s.onProgressCallbacks := by
    rw [List.erase_append_right _ hpf]
    simp
  refine ⟨hsub, hunsub, ?_, hprog, ?_, ?_, ?_⟩
  · intro r2
    rw [hunsub]
    exact (cancel_fresh fuel w j r hid).2 r2
  · unfold unsubscribeProgress
    rw [hprog, hprogW]
    simp only [setP, List.set_set, hperase]
    exact setP_self h
  · intro w2 i2 s3 h3 hempty
    unfold unsubscribeOwnCancel
    rw [h3]
    show setP w2 i2
      { s3 with ownCancelCallbacks :=
          s3.ownCancelCallbacks.erase (TCancelCallback.user id) } = w2
    have hs3 : s3.ownCancelCallbacks.erase (TCancelCallback.user id) =
        s3.ownCancelCallbacks := by
      rw [hempty]
      simp
    rw [hs3]
    exact setP_self h3
  · intro w2 i2 s3 h3 hempty
    unfold unsubscribeProgress
    rw [h3]
    show setP w2 i2
      { s3 with onProgressCallbacks := s3.onProgressCallbacks.erase pid } = w2
    have hs3 : s3.onProgressCallbacks.erase pid = s3.onProgressCallbacks := by
      rw [hempty]
      simp
    rw [hs3]
    exact setP_self h3

/-- Witness for claim8_theorem on the listener fixture. -/
theorem claim8_witness :
    getP (subscribeToOwnCancelEvent fixtureListeners 0 (TCancelCallback.user 8)) 0 =
      some { status := TPromiseStatus.pending
             ownCancelCallbacks :=
               [TCancelCallback.user 1, TCancelCallback.user 2] ++ [TCancelCallback.user 8]
             cancelCallbacks := [TCancelCallback.user 3, TCancelCallback.user 4]
             onProgressCallbacks := []
             native := none } ∧
    unsubscribeOwnCancel (subscribeToOwnCancelEvent fixtureListeners 0 (TCancelCallback.user 8)) 0
      (TCancelCallback.user 8) = fixtureListeners ∧
    (∀ r2, Event.cancelCb 8 r2 ∉
      (cancel 5
        (unsubscribeOwnCancel (subscribeToOwnCancelEvent fixtureListeners 0 (TCancelCallback.user 8)) 0
          (TCancelCallback.user 8)) 0 (JSVal.raw 1)).2) ∧
    getP (onProgress fixtureListeners 0 6) 0 =
      some { status := TPromiseStatus.pending
             ownCancelCallbacks := [TCancelCallback.user 1, TCancelCallback.user 2]
             cancelCallbacks := [TCancelCallback.user 3, TCancelCallback.user 4]
             onProgressCallbacks := [] ++ [6]
             native := none } ∧
    unsubscribeProgress (onProgress fixtureListeners 0 6) 0 6 = fixtureListeners ∧
    (∀ w2 i2 s3, getP w2 i2 = some s3 → s3.ownCancelCallbacks = [] →
      unsubscribeOwnCancel w2 i2 (TCancelCallback.user 8) = w2) ∧
    (∀ w2 i2 s3, getP w2 i2 = some s3 → s3.onProgressCallbacks = [] →
      unsubscribeProgress w2 i2 6 = w2) :=
  claim8_theorem fixtureListeners 0 0 _ 8 6 rfl (by decide) (by decide) (by decide)
    5 (JSVal.raw 1)

/-
Claim C2.  createChildPromise (invoked by then / catch / finally)
registers reason => parent.cancel(reason) on the fresh child, so cancel
on the last link of a chain walks the whole upstream lineage.
-/

theorem defaultReason_idem (r : JSVal) :
    defaultReason (defaultReason r) = defaultReason r := by
  unfold defaultReason
  by_cases h : r = JSVal.undef <;> simp [h]

/-- State of a promise freshly created by createChildPromise. -/
def childState (progressList : List Nat) (parent : PId) : CPState :=
  { status := TPromiseStatus.pending
    ownCancelCallbacks := []
    cancelCallbacks := [TCancelCallback.cancelOther parent true]
    onProgressCallbacks := progressList
    native := none }

theorem createChildPromise_spec (w : World) (parent : PId) :
    (∀ j, j < w.length → getP (createChildPromise w parent).1 j = getP w j) ∧
    getP (createChildPromise w parent).1 w.length =
      some (childState
        (match getP w parent with
         | some s => s.onProgressCallbacks
         | none => []) parent) ∧
    (createChildPromise w parent).1.length = w.length + 1 := by
  unfold createChildPromise
  have hinit : getP (w ++ [{ newPromiseState with
      onProgressCallbacks :=
        match getP w parent with
        | some s => s.onProgressCallbacks
        | none => [] }]) w.length =
      some { newPromiseState with
        onProgressCallbacks :=
          match getP w parent with
          | some s => s.onProgressCallbacks
          | none => [] } := getP_append_self ..
  refine ⟨?_, ?_, ?_⟩
  · intro j hj
    show getP (onCancel _ _ _) j = getP w j
    unfold onCancel
    rw [hinit]
    rw [getP_setP_ne _ (Nat.ne_of_gt hj)]
    exact getP_append_lt _ hj
  · show getP (onCancel _ _ _) w.length = _
    unfold onCancel
    rw [hinit]
    rw [getP_setP_self _ hinit]
    simp [setAdd, childState, newPromiseState]
  · show (onCancel _ _ _).length = w.length + 1
    unfold onCancel
    rw [hinit]
    rw [length_setP]
    simp

theorem settleNAD_getP_self {w : World} {i : PId} {s : CPState}
    (h : getP w i = some s) (r : JSVal) :
    getP (settleNativeAndDispose w i r) i =
      some (disposeCallbacks
        { s with native := nativeSettle s.native (NativeResult.rejectedWith r) }) := by
  unfold settleNativeAndDispose
  rw [h]
  exact getP_setP_self _ h

/-- Cancel of a pending promise whose own registry is empty and whose
external registry holds exactly the chain-link closure (the state
createChildPromise produces): the parent is canceled with the forwarded
reason, then the child settles its native cell and disposes. -/
theorem cancel_chainlink {w : World} {i t : PId} {s : CPState}
    (h : getP w i = some s) (hp : s.status = TPromiseStatus.pending)
    (hown : s.ownCancelCallbacks = [])
    (hext : s.cancelCallbacks = [TCancelCallback.cancelOther t true])
    (f : Nat) (reason : JSVal) :
    (cancel (f + 1) w i reason).1 =
      settleNativeAndDispose
        ((cancel f (setP w i { s with status := TPromiseStatus.canceled }) t
            (defaultReason reason)).1)
        i (defaultReason reason) := by
  rw [cancel_pending_unfold h hp]
  simp only [cancelPendingResult, hown, hext, runCancelCbs, if_pos]


/-- Core of claim C2, stated over any world containing a pending promise a
and two chain links b (child of a) and c (child of b) in the states
createChildPromise produces: cancel on c cancels c, b and a. -/
theorem chain_cancel_core (w2 : World) (a b c : PId) (sa : CPState)
    (pl1 pl2 : List Nat)
    (hab : a ≠ b) (hac : a ≠ c) (hbc : b ≠ c)
    (ha : getP w2 a = some sa) (hp : sa.status = TPromiseStatus.pending)
    (hb : getP w2 b = some (childState pl1 a))
    (hc : getP w2 c = some (childState pl2 b))
    (f : Nat) (r : JSVal) :
    statusOf ((cancel (f + 1 + 1 + 1) w2 c r).1) a = some TPromiseStatus.canceled ∧
    statusOf ((cancel (f + 1 + 1 + 1) w2 c r).1) b = some TPromiseStatus.canceled ∧
    statusOf ((cancel (f + 1 + 1 + 1) w2 c r).1) c = some TPromiseStatus.canceled := by
  rw [cancel_chainlink hc rfl rfl rfl]
  have haC : getP (setP w2 c { childState pl2 b with status := TPromiseStatus.canceled }) a =
      some sa := by rw [getP_setP_ne _ (Ne.symm hac)]; exact ha
  have hbC : getP (setP w2 c { childState pl2 b with status := TPromiseStatus.canceled }) b =
      some (childState pl1 a) := by rw [getP_setP_ne _ (Ne.symm hbc)]; exact hb
  have hcC : getP (setP w2 c { childState pl2 b with status := TPromiseStatus.canceled }) c =
      some { childState pl2 b with status := TPromiseStatus.canceled } :=
    getP_setP_self _ hc
  rw [cancel_chainlink hbC rfl rfl rfl, defaultReason_idem]
  have haB : getP (setP (setP w2 c { childState pl2 b with status := TPromiseStatus.canceled })
      b { childState pl1 a with status := TPromiseStatus.canceled }) a = some sa := by
    rw [getP_setP_ne _ (Ne.symm hab)]; exact haC
  have hbB : getP (setP (setP w2 c { childState pl2 b with status := TPromiseStatus.canceled })
      b { childState pl1 a with status := TPromiseStatus.canceled }) b =
      some { childState pl1 a with status := TPromiseStatus.canceled } :=
    getP_setP_self _ hbC
  have hcB : getP (setP (setP w2 c { childState pl2 b with status := TPromiseStatus.canceled })
      b { childState pl1 a with status := TPromiseStatus.canceled }) c =
      some { childState pl2 b with status := TPromiseStatus.canceled } := by
    rw [getP_setP_ne _ hbc]; exact hcC
  have haI : statusOf ((cancel (f + 1)
      (setP (setP w2 c { childState pl2 b with status := TPromiseStatus.canceled })
        b { childState pl1 a with status := TPromiseStatus.canceled })
      a (defaultReason r)).1) a = some TPromiseStatus.canceled :=
    cancel_pending_status haB hp f (defaultReason r)
  have hbI : getP ((cancel (f + 1)
      (setP (setP w2 c { childState pl2 b with status := TPromiseStatus.canceled })
        b { childState pl1 a with status := TPromiseStatus.canceled })
      a (defaultReason r)).1) b =
      some { childState pl1 a with status := TPromiseStatus.canceled } :=
    cancel_untouched (by simp) (f + 1) _ a (defaultReason r) b hbB
  have hcI : getP ((cancel (f + 1)
      (setP (setP w2 c { childState pl2 b with status := TPromiseStatus.canceled })
        b { childState pl1 a with status := TPromiseStatus.canceled })
      a (defaultReason r)).1) c =
      some { childState pl2 b with status := TPromiseStatus.canceled } :=
    cancel_untouched (by simp) (f + 1) _ a (defaultReason r) c hcB
  refine ⟨?_, ?_, ?_⟩
  · rw [statusOf, settleNAD_getP_ne (Ne.symm hac), settleNAD_getP_ne (Ne.symm hab)]
    rw [← statusOf]
    exact haI
  · rw [statusOf, settleNAD_getP_ne (Ne.symm hbc)]
    rw [settleNAD_getP_self hbI]
    simp [disposeCallbacks, childState]
  · rw [statusOf]
    have hcO : getP (settleNativeAndDispose ((cancel (f + 1)
        (setP (setP w2 c { childState pl2 b with status := TPromiseStatus.canceled })
          b { childState pl1 a with status := TPromiseStatus.canceled })
        a (defaultReason r)).1) b (defaultReason r)) c =
        some { childState pl2 b with status := TPromiseStatus.canceled } := by
      rw [settleNAD_getP_ne hbc]; exact hcI
    rw [settleNAD_getP_self hcO]
    simp [disposeCallbacks, childState]

/-- Claim C2: for a chain a.then(f).then(g) with all three links pending,
cancel on the last link cancels the whole upstream lineage: the statuses
of a, of the middle link (id w.length) and of the last link (id
w.length + 1) all become canceled.  The two chain children are the
promises createChildPromise appends inside then. -/
theorem claim2_theorem (w : World) (a : PId) (sa : CPState) (f : Nat) (r : JSVal)
    (h : getP w a = some sa) (hp : sa.status = TPromiseStatus.pending) :
    statusOf ((cancel (f + 1 + 1 + 1)
        (createChildPromise (createChildPromise w a).1 w.length).1
        (w.length + 1) r).1) a = some TPromiseStatus.canceled ∧
    statusOf ((cancel (f + 1 + 1 + 1)
        (createChildPromise (createChildPromise w a).1 w.length).1
        (w.length + 1) r).1) w.length = some TPromiseStatus.canceled ∧
    statusOf ((cancel (f + 1 + 1 + 1)
        (createChildPromise (createChildPromise w a).1 w.length).1
        (w.length + 1) r).1) (w.length + 1) = some TPromiseStatus.canceled := by
  have ha_lt : a < w.length := getP_lt h
  obtain ⟨hpres1, hchild1, hlen1⟩ := createChildPromise_spec w a
  obtain ⟨hpres2, hchild2, hlen2⟩ := createChildPromise_spec (createChildPromise w a).1 w.length
  rw [hlen1] at hchild2
  have hab : a ≠ w.length := Nat.ne_of_lt ha_lt
  have hac : a ≠ w.length + 1 :=
    Nat.ne_of_lt (Nat.lt_trans ha_lt (Nat.lt_succ_self _))
  have hbc : w.length ≠ w.length + 1 := Nat.ne_of_lt (Nat.lt_succ_self _)
  have hlt1 : a < (createChildPromise w a).1.length := by
    rw [hlen1]; exact Nat.lt_succ_of_lt ha_lt
  have hlt2 : w.length < (createChildPromise w a).1.length := by
    rw [hlen1]; exact Nat.lt_succ_self _
  refine chain_cancel_core _ a w.length (w.length + 1) sa
    (match getP w a with
     | some s => s.onProgressCallbacks
     | none => [])
    (match getP (createChildPromise w a).1 w.length with
     | some s => s.onProgressCallbacks
     | none => [])
    hab hac hbc ?_ hp ?_ hchild2 f r
  · rw [hpres2 a hlt1, hpres1 a ha_lt]
    exact h
  · rw [hpres2 w.length hlt2]
    exact hchild1

/-- Witness for claim2_theorem: a one-promise world, chained twice. -/
theorem claim2_witness :
    statusOf ((cancel 4
        (createChildPromise (createChildPromise [newPromiseState] 0).1 1).1
        2 (JSVal.raw 1)).1) 0 = some TPromiseStatus.canceled ∧
    statusOf ((cancel 4
        (createChildPromise (createChildPromise [newPromiseState] 0).1 1).1
        2 (JSVal.raw 1)).1) 1 = some TPromiseStatus.canceled ∧
    statusOf ((cancel 4
        (createChildPromise (createChildPromise [newPromiseState] 0).1 1).1
        2 (JSVal.raw 1)).1) 2 = some TPromiseStatus.canceled :=
  claim2_theorem [newPromiseState] 0 newPromiseState 1 (JSVal.raw 1) rfl rfl

/-
Claim C4.  race registers () => child.cancel() on the parent own registry
for every input (so parent cancellation fans out to every child), and its
rejection handler turns a child that canceled on its own into a
cancellation of the parent with the same reason (lines 447-474).
-/

theorem raceLoop_cons_cp (p : PId) (w1 : World) (c : PId) (vs : List CombInput) :
    raceLoop p w1 (CombInput.cp c :: vs) =
      raceLoop p
        ((createChildPromise
          (subscribeToOwnCancelEvent w1 p (TCancelCallback.cancelOther c false)) c).1)
        vs := by
  simp [raceLoop, toCancelablePromise]

theorem raceLoop_cp_spec (p : PId) :
    ∀ (cs : List PId) (w1 : World) (sp : CPState),
      getP w1 p = some sp →
      getP (raceLoop p w1 (cs.map CombInput.cp)) p =
        some { sp with ownCancelCallbacks :=
          (cs.foldl (fun l c => setAdd l (TCancelCallback.cancelOther c false))
            sp.ownCancelCallbacks) } ∧
      (∀ j, j ≠ p → j < w1.length →
        getP (raceLoop p w1 (cs.map CombInput.cp)) j = getP w1 j) := by
  intro cs
  induction cs with
  | nil =>
    intro w1 sp hp
    constructor
    · simpa [raceLoop] using hp
    · intro j _ _; simp [raceLoop]
  | cons c rest ih =>
    intro w1 sp hp
    have hp2 : getP (subscribeToOwnCancelEvent w1 p (TCancelCallback.cancelOther c false)) p =
        some { sp with ownCancelCallbacks := (setAdd
          sp.ownCancelCallbacks (TCancelCallback.cancelOther c false)) } :=
      subscribeOwn_getP_self hp _
    have hplt2 : p < (subscribeToOwnCancelEvent w1 p (TCancelCallback.cancelOther c false)).length :=
      getP_lt hp2
    obtain ⟨hpres, hchild, hlen⟩ := createChildPromise_spec
      (subscribeToOwnCancelEvent w1 p (TCancelCallback.cancelOther c false)) c
    have hp3 : getP ((createChildPromise
        (subscribeToOwnCancelEvent w1 p (TCancelCallback.cancelOther c false)) c).1) p =
        some { sp with ownCancelCallbacks := (setAdd
          sp.ownCancelCallbacks (TCancelCallback.cancelOther c false)) } := by
      rw [hpres p hplt2]
      exact hp2
    obtain ⟨ihp, ihpres⟩ := ih _ _ hp3
    constructor
    · rw [List.map_cons, raceLoop_cons_cp, ihp]
      rfl
    · intro j hj hlt
      rw [List.map_cons, raceLoop_cons_cp]
      have hlw1 : (subscribeToOwnCancelEvent w1 p (TCancelCallback.cancelOther c false)).length =
          w1.length := by
        unfold subscribeToOwnCancelEvent
        rw [hp]
        exact length_setP ..
      rw [ihpres j hj (by rw [hlen, hlw1]; exact Nat.lt_succ_of_lt hlt)]
      rw [hpres j (by rw [hlw1]; exact hlt)]
      unfold subscribeToOwnCancelEvent
      rw [hp]
      exact getP_setP_ne _ (Ne.symm hj)

theorem foldl_setAdd_co :
    ∀ (cs : List PId) (L : List TCancelCallback),
      (∀ c ∈ cs, TCancelCallback.cancelOther c false ∉ L) → cs.Nodup →
      cs.foldl (fun l c => setAdd l (TCancelCallback.cancelOther c false)) L =
        L ++ cs.map fun c => TCancelCallback.cancelOther c false := by
  intro cs
  induction cs with
  | nil => intro L _ _; simp
  | cons c rest ih =>
    intro L hL hnd
    simp only [List.foldl_cons]
    have hnotin : TCancelCallback.cancelOther c false ∉ L := hL c (by simp)
    have hstep : setAdd L (TCancelCallback.cancelOther c false) =
        L ++ [TCancelCallback.cancelOther c false] := by
      simp [setAdd, hnotin]
    rw [hstep]
    rw [ih (L ++ [TCancelCallback.cancelOther c false]) ?_ (List.Nodup.of_cons hnd)]
    · simp
    · intro c2 hc2
      simp only [List.mem_append, List.mem_singleton]
      rintro (h1 | h2)
      · exact hL c2 (List.mem_cons_of_mem _ hc2) h1
      · have : c2 = c := by cases h2; rfl
        subst this
        exact (List.nodup_cons.mp hnd).1 hc2

theorem raceBuild_cp_spec (w : World) (cs : List PId) (hnd : cs.Nodup) :
    getP (raceBuild w (cs.map CombInput.cp)).1 w.length =
      some { newPromiseState with ownCancelCallbacks :=
        (cs.map fun c => TCancelCallback.cancelOther c false) } ∧
    (∀ j, j < w.length → getP (raceBuild w (cs.map CombInput.cp)).1 j = getP w j) := by
  unfold raceBuild
  have hp0 : getP (w ++ [newPromiseState]) w.length = some newPromiseState :=
    getP_append_self ..
  obtain ⟨h1, h2⟩ := raceLoop_cp_spec w.length cs (w ++ [newPromiseState]) newPromiseState hp0
  constructor
  · rw [h1, foldl_setAdd_co cs _ (by simp [newPromiseState]) hnd]
    simp [newPromiseState]
  · intro j hj
    rw [h2 j (Nat.ne_of_lt hj) (by simp only [List.length_append, List.length_cons, List.length_nil]; exact Nat.lt_succ_of_lt hj)]
    exact getP_append_lt _ hj

/-- Child of a combinator in a state the fan-out can cancel: pending or
already canceled, with only opaque user listeners in its registries. -/
def childReady (w : World) (c : PId) : Prop :=
  ∃ sc, getP w c = some sc ∧
    (sc.status = TPromiseStatus.pending ∨ sc.status = TPromiseStatus.canceled) ∧
    cbsUser sc.ownCancelCallbacks = true ∧ cbsUser sc.cancelCallbacks = true

/-- Fan-out loop of a combinator parent: running the () => child.cancel()
closures over a list of ready children cancels every one of them and
touches nothing else. -/
theorem cancelChildren_loop (f : Nat) (r : JSVal) :
    ∀ (cs : List PId) (w : World),
      (∀ c ∈ cs, childReady w c) → cs.Nodup →
      (∀ c ∈ cs,
        statusOf ((runCancelCbs (cancel (f + 1))
          (cs.map fun c2 => TCancelCallback.cancelOther c2 false) r w).1) c =
          some TPromiseStatus.canceled) ∧
      (∀ j, j ∉ cs →
        getP ((runCancelCbs (cancel (f + 1))
          (cs.map fun c2 => TCancelCallback.cancelOther c2 false) r w).1) j = getP w j) := by
  intro cs
  induction cs with
  | nil => intro w _ _; exact ⟨by simp, by intro j _; simp [runCancelCbs]⟩
  | cons c rest ih =>
    intro w hready hnd
    obtain ⟨sc, hsc, hst, hou, heu⟩ := hready c (by simp)
    have hstep : statusOf ((cancel (f + 1) w c JSVal.undef).1) c =
          some TPromiseStatus.canceled ∧
        ∀ j, j ≠ c → getP ((cancel (f + 1) w c JSVal.undef).1) j = getP w j := by
      rcases hst with hpend | hcanc
      · constructor
        · exact cancel_pending_status hsc hpend f JSVal.undef
        · intro j hj
          rw [cancel_user_only hsc hpend hou heu f JSVal.undef]
          exact getP_setP_ne _ (Ne.symm hj)
      · constructor
        · rw [cancel_noop hsc (by simp [hcanc]) (f + 1) JSVal.undef]
          simp [statusOf, hsc, hcanc]
        · intro j _
          rw [cancel_noop hsc (by simp [hcanc]) (f + 1) JSVal.undef]
    have hreadyRest : ∀ c2 ∈ rest, childReady ((cancel (f + 1) w c JSVal.undef).1) c2 := by
      intro c2 hc2
      obtain ⟨s2, hs2, h2a, h2b, h2c⟩ := hready c2 (List.mem_cons_of_mem _ hc2)
      have hne : c2 ≠ c := by
        intro heq
        subst heq
        exact (List.nodup_cons.mp hnd).1 hc2
      exact ⟨s2, by rw [hstep.2 c2 hne]; exact hs2, h2a, h2b, h2c⟩
    obtain ⟨ih1, ih2⟩ := ih _ hreadyRest (List.Nodup.of_cons hnd)
    have hloop : (runCancelCbs (cancel (f + 1))
        ((c :: rest).map fun c2 => TCancelCallback.cancelOther c2 false) r w).1 =
        (runCancelCbs (cancel (f + 1))
          (rest.map fun c2 => TCancelCallback.cancelOther c2 false) r
          ((cancel (f + 1) w c JSVal.undef).1)).1 := by
      simp [runCancelCbs]
    constructor
    · intro c2 hc2
      rcases List.mem_cons.mp hc2 with h1 | h2
      · subst h1
        rw [statusOf, hloop, ih2 c2 (List.nodup_cons.mp hnd).1]
        rw [← statusOf]
        exact hstep.1
      · rw [statusOf, hloop, ← statusOf]
        exact ih1 c2 h2
    · intro j hj
      have hj1 : j ≠ c := by intro heq; subst heq; exact hj (by simp)
      have hj2 : j ∉ rest := fun hmem => hj (List.mem_cons_of_mem _ hmem)
      rw [hloop, ih2 j hj2, hstep.2 j hj1]

/-- Cancel of a combinator parent in the state race and the other
combinators build: pending, empty external registry, unsettled native
cell, own registry holding exactly one () => child.cancel() closure per
(ready) child: the parent becomes canceled with the defaulted reason
rejected into its native cell, and every child becomes canceled. -/
theorem race_parent_cancel_core (f : Nat) (r : JSVal) (W : World) (p : PId)
    (cs : List PId)
    (hP : getP W p = some { newPromiseState with ownCancelCallbacks :=
      (cs.map fun c => TCancelCallback.cancelOther c false) })
    (hready : ∀ c ∈ cs, childReady W c) (hnd : cs.Nodup) (hp_notin : p ∉ cs) :
    statusOf ((cancel (f + 1 + 1) W p r).1) p = some TPromiseStatus.canceled ∧
    nativeOf ((cancel (f + 1 + 1) W p r).1) p =
      some (NativeResult.rejectedWith (defaultReason r)) ∧
    ∀ c ∈ cs, statusOf ((cancel (f + 1 + 1) W p r).1) c = some TPromiseStatus.canceled := by
  refine ⟨cancel_pending_status hP rfl (f + 1) r, ?_, ?_⟩
  · unfold nativeOf
    rw [cancel_pending_getP_self hP rfl (f + 1) r]
    simp [disposeCallbacks, nativeSettle, newPromiseState]
  · intro c hc
    rw [cancel_pending_unfold hP rfl]
    simp only [cancelPendingResult]
    have hne : c ≠ p := by
      intro heq
      rw [heq] at hc
      exact hp_notin hc
    have hreadyW1 : ∀ c2 ∈ cs, childReady
        (setP W p { { newPromiseState with ownCancelCallbacks := (cs.map
          fun c3 => TCancelCallback.cancelOther c3 false) } with
            status := TPromiseStatus.canceled }) c2 := by
      intro c2 hc2
      obtain ⟨s2, hs2, h2a, h2b, h2c⟩ := hready c2 hc2
      refine ⟨s2, ?_, h2a, h2b, h2c⟩
      rw [getP_setP_ne _ (by
        intro heq
        rw [heq] at hp_notin
        exact hp_notin hc2)]
      exact hs2
    obtain ⟨hloop1, _⟩ := cancelChildren_loop f (defaultReason r) cs _ hreadyW1 hnd
    show statusOf (settleNativeAndDispose
      (runCancelCbs (cancel (f + 1))
        (({ newPromiseState with ownCancelCallbacks := (cs.map
          fun c3 => TCancelCallback.cancelOther c3 false) } : CPState).cancelCallbacks)
        (defaultReason r) _).1 p (defaultReason r)) c = some TPromiseStatus.canceled
    have hext : ({ newPromiseState with ownCancelCallbacks := (cs.map
        fun c3 => TCancelCallback.cancelOther c3 false) } : CPState).cancelCallbacks =
        ([] : List TCancelCallback) := rfl
    rw [hext]
    show statusOf (settleNativeAndDispose
      (runCancelCbs (cancel (f + 1)) [] (defaultReason r) _).1 p (defaultReason r)) c = _
    rw [statusOf, settleNAD_getP_ne (Ne.symm hne)]
    show (getP (runCancelCbs (cancel (f + 1))
      (cs.map fun c3 => TCancelCallback.cancelOther c3 false) (defaultReason r) _).1 c).map
        CPState.status = _
    rw [← statusOf]
    exact hloop1 c hc

/-- Claim C4: for race over already-cancelable pending children (with
opaque listeners and unsettled native cells), (a) canceling the combined
parent (id w.length) cancels every child and the parent itself, and
(b) when a child c0 becomes canceled on its own, the rejection handler
race attached (raceOnChildRejected, fired with the reason the child
rejected its native cell with, namely defaultReason rc) cancels the
parent with that child reason -- the parent status becomes canceled, not
rejected, its native cell rejects with the child reason, and every
sibling is canceled too. -/
theorem claim4_theorem (w : World) (cs : List PId) (c0 : PId) (f f2 f3 : Nat)
    (r rc : JSVal)
    (hnd : cs.Nodup)
    (hch : ∀ c ∈ cs, ∃ sc, getP w c = some sc ∧
      sc.status = TPromiseStatus.pending ∧
      cbsUser sc.ownCancelCallbacks = true ∧ cbsUser sc.cancelCallbacks = true ∧
      sc.native = none)
    (hlt : ∀ c ∈ cs, c < w.length)
    (hc0 : c0 ∈ cs) :
    (∀ c ∈ cs, statusOf ((cancel (f + 1 + 1)
        (raceBuild w (cs.map CombInput.cp)).1 w.length r).1) c =
      some TPromiseStatus.canceled) ∧
    statusOf ((cancel (f + 1 + 1)
        (raceBuild w (cs.map CombInput.cp)).1 w.length r).1) w.length =
      some TPromiseStatus.canceled ∧
    statusOf (raceOnChildRejected (f3 + 1 + 1)
        ((cancel (f2 + 1) (raceBuild w (cs.map CombInput.cp)).1 c0 rc).1)
        w.length c0 (defaultReason rc)).1 w.length = some TPromiseStatus.canceled ∧
    nativeOf (raceOnChildRejected (f3 + 1 + 1)
        ((cancel (f2 + 1) (raceBuild w (cs.map CombInput.cp)).1 c0 rc).1)
        w.length c0 (defaultReason rc)).1 w.length =
      some (NativeResult.rejectedWith (defaultReason rc)) ∧
    (∀ c ∈ cs, statusOf (raceOnChildRejected (f3 + 1 + 1)
        ((cancel (f2 + 1) (raceBuild w (cs.map CombInput.cp)).1 c0 rc).1)
        w.length c0 (defaultReason rc)).1 c = some TPromiseStatus.canceled) := by
  obtain ⟨hP, hpres⟩ := raceBuild_cp_spec w cs hnd
  have hp_notin : w.length ∉ cs := fun hmem => absurd (hlt _ hmem) (Nat.lt_irrefl _)
  have hreadyW : ∀ c ∈ cs, childReady (raceBuild w (cs.map CombInput.cp)).1 c := by
    intro c hc
    obtain ⟨sc, hsc, h1, h2, h3, _⟩ := hch c hc
    exact ⟨sc, by rw [hpres c (hlt c hc)]; exact hsc, Or.inl h1, h2, h3⟩
  obtain ⟨hA1, hA2, hA3⟩ :=
    race_parent_cancel_core f r _ w.length cs hP hreadyW hnd hp_notin
  obtain ⟨sc0, hsc0w, hp0, hu1, hu2, hn0⟩ := hch c0 hc0
  have hsc0 : getP (raceBuild w (cs.map CombInput.cp)).1 c0 = some sc0 := by
    rw [hpres c0 (hlt c0 hc0)]
    exact hsc0w
  have hc0p : c0 ≠ w.length := Nat.ne_of_lt (hlt c0 hc0)
  have hw4 : (cancel (f2 + 1) (raceBuild w (cs.map CombInput.cp)).1 c0 rc).1 =
      setP (raceBuild w (cs.map CombInput.cp)).1 c0
        (disposeCallbacks { sc0 with
          status := TPromiseStatus.canceled
          native := nativeSettle sc0.native
            (NativeResult.rejectedWith (defaultReason rc)) }) := by
    rw [cancel_user_only hsc0 hp0 hu1 hu2]
  have hfinal : getP ((cancel (f2 + 1) (raceBuild w (cs.map CombInput.cp)).1 c0 rc).1) c0 =
      some (disposeCallbacks { sc0 with
        status := TPromiseStatus.canceled
        native := nativeSettle sc0.native
          (NativeResult.rejectedWith (defaultReason rc)) }) := by
    rw [hw4]
    exact getP_setP_self _ hsc0
  have hPw4 : getP ((cancel (f2 + 1) (raceBuild w (cs.map CombInput.cp)).1 c0 rc).1) w.length =
      some { newPromiseState with ownCancelCallbacks :=
        (cs.map fun c => TCancelCallback.cancelOther c false) } := by
    rw [hw4, getP_setP_ne _ hc0p]
    exact hP
  have hstep : raceOnChildRejected (f3 + 1 + 1)
      ((cancel (f2 + 1) (raceBuild w (cs.map CombInput.cp)).1 c0 rc).1)
      w.length c0 (defaultReason rc) =
      cancel (f3 + 1 + 1)
        ((cancel (f2 + 1) (raceBuild w (cs.map CombInput.cp)).1 c0 rc).1)
        w.length (defaultReason rc) := by
    unfold raceOnChildRejected
    rw [hfinal]
    simp [disposeCallbacks]
  have hreadyW4 : ∀ c ∈ cs, childReady
      ((cancel (f2 + 1) (raceBuild w (cs.map CombInput.cp)).1 c0 rc).1) c := by
    intro c hc
    by_cases hcc : c = c0
    · subst hcc
      exact ⟨_, hfinal, Or.inr rfl, rfl, rfl⟩
    · obtain ⟨sc, hsc, h1, h2, h3, _⟩ := hch c hc
      refine ⟨sc, ?_, Or.inl h1, h2, h3⟩
      rw [hw4, getP_setP_ne _ (fun heq => hcc heq.symm), hpres c (hlt c hc)]
      exact hsc
  obtain ⟨hB1, hB2, hB3⟩ := race_parent_cancel_core f3 (defaultReason rc) _
    w.length cs hPw4 hreadyW4 hnd hp_notin
  refine ⟨hA3, hA1, ?_, ?_, ?_⟩
  · rw [hstep]
    exact hB1
  · rw [hstep, hB2, defaultReason_idem]
  · intro c hc
    rw [hstep]
    exact hB3 c hc

/-- Witness for claim4_theorem: two pending children raced. -/
theorem claim4_witness :
    (∀ c ∈ [0, 1], statusOf ((cancel 2
        (raceBuild [newPromiseState, newPromiseState] ([0, 1].map CombInput.cp)).1
        2 (JSVal.raw 7)).1) c = some TPromiseStatus.canceled) ∧
    statusOf ((cancel 2
        (raceBuild [newPromiseState, newPromiseState] ([0, 1].map CombInput.cp)).1
        2 (JSVal.raw 7)).1) 2 = some TPromiseStatus.canceled ∧
    statusOf (raceOnChildRejected 2
        ((cancel 1
          (raceBuild [newPromiseState, newPromiseState] ([0, 1].map CombInput.cp)).1
          0 (JSVal.raw 9)).1)
        2 0 (defaultReason (JSVal.raw 9))).1 2 = some TPromiseStatus.canceled ∧
    nativeOf (raceOnChildRejected 2
        ((cancel 1
          (raceBuild [newPromiseState, newPromiseState] ([0, 1].map CombInput.cp)).1
          0 (JSVal.raw 9)).1)
        2 0 (defaultReason (JSVal.raw 9))).1 2 =
      some (NativeResult.rejectedWith (defaultReason (JSVal.raw 9))) ∧
    (∀ c ∈ [0, 1], statusOf (raceOnChildRejected 2
        ((cancel 1
          (raceBuild [newPromiseState, newPromiseState] ([0, 1].map CombInput.cp)).1
          0 (JSVal.raw 9)).1)
        2 0 (defaultReason (JSVal.raw 9))).1 c = some TPromiseStatus.canceled) :=
  claim4_theorem [newPromiseState, newPromiseState] [0, 1] 0 0 0 0
    (JSVal.raw 7) (JSVal.raw 9)
    (by decide)
    (by
      intro c hc
      simp only [List.mem_cons, List.not_mem_nil, or_false] at hc
      rcases hc with rfl | rfl
      · exact ⟨newPromiseState, rfl, rfl, rfl, rfl, rfl⟩
      · exact ⟨newPromiseState, rfl, rfl, rfl, rfl, rfl⟩)
    (by decide)
    (by decide)

/-
Lemmas about the JS Map model (mapSet) and first-occurrence key lists
(insKey / jsKeys), used by the all and allSettled fan-in.
-/

theorem mapSet_map_mem {α : Type} :
    ∀ {keys : List PId}, keys.Nodup → ∀ {c : PId}, c ∈ keys →
      ∀ (g : PId → α) (v : α),
      mapSet (keys.map fun k => (k, g k)) c v =
        keys.map fun k => (k, if k = c then v else g k) := by
  intro keys
  induction keys with
  | nil => intro _ c hc; cases hc
  | cons k rest ih =>
    intro hnd c hc g v
    simp only [List.map_cons, mapSet]
    by_cases hkc : k = c
    · subst hkc
      simp only [if_pos rfl]
      have htail : ∀ k2 ∈ rest, ((k2, g k2) : PId × α) = (k2, if k2 = k then v else g k2) := by
        intro k2 hk2
        have hne : k2 ≠ k := fun h => (List.nodup_cons.mp hnd).1 (h ▸ hk2)
        simp [hne]
      simp only [List.map_congr_left htail]
      simp
    · rw [if_neg hkc]
      have hcrest : c ∈ rest := by
        rcases List.mem_cons.mp hc with h | h
        · exact absurd h.symm hkc
        · exact h
      rw [ih (List.Nodup.of_cons hnd) hcrest g v]
      simp [hkc]

theorem mapSet_map_notmem {α : Type} :
    ∀ {keys : List PId} {c : PId}, c ∉ keys → ∀ (g : PId → α) (v : α),
      mapSet (keys.map fun k => (k, g k)) c v =
        (keys.map fun k => (k, g k)) ++ [(c, v)] := by
  intro keys
  induction keys with
  | nil => intro c _ g v; rfl
  | cons k rest ih =>
    intro c hc g v
    have hkc : k ≠ c := fun h => hc (h ▸ List.mem_cons_self k rest)
    have hcrest : c ∉ rest := fun h => hc (List.mem_cons_of_mem _ h)
    simp only [List.map_cons, mapSet, if_neg hkc, ih hcrest g v, List.cons_append]

theorem insKey_nodup {acc : List PId} (h : acc.Nodup) (c : PId) :
    (insKey acc c).Nodup := by
  unfold insKey
  by_cases hc : c ∈ acc
  · simpa [hc] using h
  · simp only [hc, if_false]
    exact List.Nodup.append h (List.nodup_singleton c) (by simpa using hc)

theorem foldlIns_nodup :
    ∀ (cs acc : List PId), acc.Nodup → (cs.foldl insKey acc).Nodup := by
  intro cs
  induction cs with
  | nil => intro acc h; exact h
  | cons c rest ih => intro acc h; exact ih _ (insKey_nodup h c)

theorem jsKeys_nodup (cs : List PId) : (jsKeys cs).Nodup :=
  foldlIns_nodup cs [] List.nodup_nil

theorem mem_insKey {acc : List PId} {x c : PId} :
    x ∈ insKey acc c ↔ x ∈ acc ∨ x = c := by
  unfold insKey
  by_cases hc : c ∈ acc
  · simp only [hc, if_true]
    constructor
    · exact fun h => Or.inl h
    · rintro (h | rfl)
      · exact h
      · exact hc
  · simp [hc]

theorem mem_foldlIns :
    ∀ (cs acc : List PId) (x : PId),
      x ∈ cs.foldl insKey acc ↔ x ∈ acc ∨ x ∈ cs := by
  intro cs
  induction cs with
  | nil => intro acc x; simp
  | cons c rest ih =>
    intro acc x
    rw [List.foldl_cons, ih]
    rw [mem_insKey]
    constructor
    · rintro ((h | rfl) | h)
      · exact Or.inl h
      · exact Or.inr (by simp)
      · exact Or.inr (List.mem_cons_of_mem _ h)
    · rintro (h | h)
      · exact Or.inl (Or.inl h)
      · rcases List.mem_cons.mp h with rfl | h2
        · exact Or.inl (Or.inr rfl)
        · exact Or.inr h2

theorem mem_jsKeys (cs : List PId) (x : PId) : x ∈ jsKeys cs ↔ x ∈ cs := by
  rw [jsKeys, mem_foldlIns]
  simp

theorem length_insKey_le (acc : List PId) (c : PId) :
    (insKey acc c).length ≤ acc.length + 1 := by
  unfold insKey
  by_cases hc : c ∈ acc <;> simp [hc]

theorem length_foldlIns_le :
    ∀ (cs acc : List PId), (cs.foldl insKey acc).length ≤ acc.length + cs.length := by
  intro cs
  induction cs with
  | nil => intro acc; simp
  | cons c rest ih =>
    intro acc
    rw [List.foldl_cons]
    calc (rest.foldl insKey (insKey acc c)).length
        ≤ (insKey acc c).length + rest.length := ih _
      _ ≤ acc.length + 1 + rest.length := by
          have := length_insKey_le acc c
          omega
      _ = acc.length + (c :: rest).length := by simp only [List.length_cons]; omega

theorem length_foldlIns_lt_of_mem :
    ∀ (cs acc : List PId) (x : PId), x ∈ acc → x ∈ cs →
      (cs.foldl insKey acc).length < acc.length + cs.length := by
  intro cs
  induction cs with
  | nil => intro acc x _ hx; cases hx
  | cons c rest ih =>
    intro acc x hxa hxc
    rw [List.foldl_cons]
    by_cases hxeq : x = c
    · subst hxeq
      have hins : insKey acc x = acc := by simp [insKey, hxa]
      rw [hins]
      calc (rest.foldl insKey acc).length
          ≤ acc.length + rest.length := length_foldlIns_le ..
        _ < acc.length + (x :: rest).length := by simp only [List.length_cons]; omega
    · have hxrest : x ∈ rest := by
        rcases List.mem_cons.mp hxc with h | h
        · exact absurd h hxeq
        · exact h
      have hxacc2 : x ∈ insKey acc c := mem_insKey.mpr (Or.inl hxa)
      calc (rest.foldl insKey (insKey acc c)).length
          < (insKey acc c).length + rest.length := ih _ x hxacc2 hxrest
        _ ≤ acc.length + 1 + rest.length := by
            have := length_insKey_le acc c
            omega
        _ = acc.length + (c :: rest).length := by simp only [List.length_cons]; omega

theorem length_foldlIns_lt_of_dup :
    ∀ (cs acc : List PId), ¬ cs.Nodup →
      (cs.foldl insKey acc).length < acc.length + cs.length := by
  intro cs
  induction cs with
  | nil => intro acc hdup; exact absurd List.nodup_nil hdup
  | cons c rest ih =>
    intro acc hdup
    rw [List.foldl_cons]
    by_cases hnd : rest.Nodup
    · have hcmem : c ∈ rest := by
        by_contra hcm
        exact hdup (List.nodup_cons.mpr ⟨hcm, hnd⟩)
      have hstart : c ∈ insKey acc c := mem_insKey.mpr (Or.inr rfl)
      calc (rest.foldl insKey (insKey acc c)).length
          < (insKey acc c).length + rest.length :=
            length_foldlIns_lt_of_mem rest _ c hstart hcmem
        _ ≤ acc.length + 1 + rest.length := by
            have := length_insKey_le acc c
            omega
        _ = acc.length + (c :: rest).length := by simp only [List.length_cons]; omega
    · calc (rest.foldl insKey (insKey acc c)).length
          < (insKey acc c).length + rest.length := ih _ hnd
        _ ≤ acc.length + 1 + rest.length := by
            have := length_insKey_le acc c
            omega
        _ = acc.length + (c :: rest).length := by simp only [List.length_cons]; omega

theorem jsKeys_length_lt (cs : List PId) (hdup : ¬ cs.Nodup) :
    (jsKeys cs).length < cs.length := by
  have := length_foldlIns_lt_of_dup cs [] hdup
  simpa [jsKeys] using this

theorem jsKeys_eq_of_nodup_aux :
    ∀ (cs acc : List PId), (∀ c ∈ cs, c ∉ acc) → cs.Nodup →
      cs.foldl insKey acc = acc ++ cs := by
  intro cs
  induction cs with
  | nil => intro acc _ _; simp
  | cons c rest ih =>
    intro acc hdisj hnd
    rw [List.foldl_cons]
    have hc : c ∉ acc := hdisj c (by simp)
    have hins : insKey acc c = acc ++ [c] := by simp [insKey, hc]
    rw [hins, ih (acc ++ [c]) ?_ (List.Nodup.of_cons hnd)]
    · simp
    · intro c2 hc2
      simp only [List.mem_append, List.mem_singleton]
      rintro (h | rfl)
      · exact hdisj c2 (List.mem_cons_of_mem _ hc2) h
      · exact (List.nodup_cons.mp hnd).1 hc2

theorem jsKeys_eq_of_nodup {cs : List PId} (hnd : cs.Nodup) : jsKeys cs = cs := by
  have := jsKeys_eq_of_nodup_aux cs [] (by simp) hnd
  simpa [jsKeys] using this

/-
Claim C5 / C10 machinery: behavior of the allSettled (and all) build loop
and of the per-settlement handler runs.
-/

theorem foldl_mapSet_none {α : Type} :
    ∀ (cs keys0 : List PId), keys0.Nodup →
      cs.foldl (fun e c => mapSet e c none) (keys0.map fun k => (k, (none : Option α))) =
        (cs.foldl insKey keys0).map fun k => (k, none) := by
  intro cs
  induction cs with
  | nil => intro keys0 _; simp
  | cons c rest ih =>
    intro keys0 hnd
    rw [List.foldl_cons, List.foldl_cons]
    by_cases hc : c ∈ keys0
    · have h1 : mapSet (keys0.map fun k => (k, (none : Option α))) c none =
          keys0.map fun k => (k, none) := by
        rw [mapSet_map_mem hnd hc]
        apply List.map_congr_left
        intro k _
        by_cases hkc : k = c <;> simp [hkc]
      have h2 : insKey keys0 c = keys0 := by simp [insKey, hc]
      rw [h1, h2]
      exact ih keys0 hnd
    · have h1 : mapSet (keys0.map fun k => (k, (none : Option α))) c none =
          (keys0 ++ [c]).map fun k => (k, none) := by
        rw [mapSet_map_notmem hc]
        simp
      have h2 : insKey keys0 c = keys0 ++ [c] := by simp [insKey, hc]
      rw [h1, h2]
      exact ih (keys0 ++ [c])
        (List.Nodup.append hnd (List.nodup_singleton c) (by simpa using hc))

theorem allSettledLoop_cons_cp (p : PId) (w : World)
    (entries : List (PId × Option SettledRecord)) (c : PId) (vs : List CombInput) :
    allSettledLoop p w entries (CombInput.cp c :: vs) =
      allSettledLoop p
        ((createChildPromise
          (createChildPromise
            (subscribeToOwnCancelEvent w p (TCancelCallback.cancelOther c false)) c).1
          (createChildPromise
            (subscribeToOwnCancelEvent w p (TCancelCallback.cancelOther c false)) c).2).1)
        (mapSet entries c none) vs := by
  simp [allSettledLoop, toCancelablePromise]

theorem subscribeOwn_length {w : World} {p : PId} {sp : CPState}
    (hp : getP w p = some sp) (cb : TCancelCallback) :
    (subscribeToOwnCancelEvent w p cb).length = w.length := by
  unfold subscribeToOwnCancelEvent
  rw [hp]
  exact length_setP ..

theorem allSettledLoop_cp_spec (p : PId) :
    ∀ (cs : List PId) (w1 : World)
      (entries : List (PId × Option SettledRecord)) (sp : CPState),
      getP w1 p = some sp →
      (∃ sp2, getP (allSettledLoop p w1 entries (cs.map CombInput.cp)).1 p = some sp2 ∧
        sp2.status = sp.status ∧ sp2.native = sp.native) ∧
      (∀ j, j ≠ p → j < w1.length →
        getP (allSettledLoop p w1 entries (cs.map CombInput.cp)).1 j = getP w1 j) ∧
      (allSettledLoop p w1 entries (cs.map CombInput.cp)).2 =
        cs.foldl (fun e c => mapSet e c none) entries := by
  intro cs
  induction cs with
  | nil =>
    intro w1 entries sp hp
    exact ⟨⟨sp, by simpa [allSettledLoop] using hp, rfl, rfl⟩,
      by intro j _ _; simp [allSettledLoop],
      by simp [allSettledLoop]⟩
  | cons c rest ih =>
    intro w1 entries sp hp
    have hp2 : getP (subscribeToOwnCancelEvent w1 p (TCancelCallback.cancelOther c false)) p =
        some { sp with ownCancelCallbacks := (setAdd
          sp.ownCancelCallbacks (TCancelCallback.cancelOther c false)) } :=
      subscribeOwn_getP_self hp _
    have hlw2 : (subscribeToOwnCancelEvent w1 p (TCancelCallback.cancelOther c false)).length =
        w1.length := subscribeOwn_length hp _
    obtain ⟨hpresA, _, hlenA⟩ := createChildPromise_spec
      (subscribeToOwnCancelEvent w1 p (TCancelCallback.cancelOther c false)) c
    have hplt : p < (subscribeToOwnCancelEvent w1 p
        (TCancelCallback.cancelOther c false)).length := by
      rw [hlw2]
      exact getP_lt hp
    have hpA : getP (createChildPromise
        (subscribeToOwnCancelEvent w1 p (TCancelCallback.cancelOther c false)) c).1 p =
        some { sp with ownCancelCallbacks := (setAdd
          sp.ownCancelCallbacks (TCancelCallback.cancelOther c false)) } := by
      rw [hpresA p hplt]
      exact hp2
    obtain ⟨hpresB, _, hlenB⟩ := createChildPromise_spec
      (createChildPromise
        (subscribeToOwnCancelEvent w1 p (TCancelCallback.cancelOther c false)) c).1
      (createChildPromise
        (subscribeToOwnCancelEvent w1 p (TCancelCallback.cancelOther c false)) c).2
    have hpltB : p < (createChildPromise
        (subscribeToOwnCancelEvent w1 p (TCancelCallback.cancelOther c false)) c).1.length := by
      rw [hlenA]
      exact Nat.lt_succ_of_lt hplt
    have hpB : getP ((createChildPromise
        (createChildPromise
          (subscribeToOwnCancelEvent w1 p (TCancelCallback.cancelOther c false)) c).1
        (createChildPromise
          (subscribeToOwnCancelEvent w1 p (TCancelCallback.cancelOther c false)) c).2).1) p =
        some { sp with ownCancelCallbacks := (setAdd
          sp.ownCancelCallbacks (TCancelCallback.cancelOther c false)) } := by
      rw [hpresB p hpltB]
      exact hpA
    obtain ⟨hex, hpres, hent⟩ := ih _ (mapSet entries c none) _ hpB
    refine ⟨?_, ?_, ?_⟩
    · obtain ⟨sp2, h1, h2, h3⟩ := hex
      refine ⟨sp2, ?_, h2, h3⟩
      rw [List.map_cons, allSettledLoop_cons_cp]
      exact h1
    · intro j hj hjlt
      rw [List.map_cons, allSettledLoop_cons_cp]
      rw [hpres j hj (by
        rw [hlenB, hlenA, hlw2]
        exact Nat.lt_succ_of_lt (Nat.lt_succ_of_lt hjlt))]
      rw [hpresB j (by
        rw [hlenA, hlw2]
        exact Nat.lt_succ_of_lt hjlt)]
      rw [hpresA j (by rw [hlw2]; exact hjlt)]
      unfold subscribeToOwnCancelEvent
      rw [hp]
      exact getP_setP_ne _ (Ne.symm hj)
    · rw [List.map_cons, allSettledLoop_cons_cp, hent, List.foldl_cons]

theorem allSettledBuild_cp_spec (w : World) (cs : List PId) :
    (∃ sp2, getP (allSettledBuild w (cs.map CombInput.cp)).1 w.length = some sp2 ∧
      sp2.status = TPromiseStatus.pending ∧ sp2.native = none) ∧
    (∀ j, j < w.length → getP (allSettledBuild w (cs.map CombInput.cp)).1 j = getP w j) ∧
    (allSettledBuild w (cs.map CombInput.cp)).2.parent = w.length ∧
    (allSettledBuild w (cs.map CombInput.cp)).2.promisesLength = cs.length ∧
    (allSettledBuild w (cs.map CombInput.cp)).2.resultsLength = 0 ∧
    (allSettledBuild w (cs.map CombInput.cp)).2.entries =
      (jsKeys cs).map fun k => (k, (none : Option SettledRecord)) := by
  have hp0 : getP (w ++ [newPromiseState]) w.length = some newPromiseState :=
    getP_append_self ..
  obtain ⟨hex, hpres, hent⟩ :=
    allSettledLoop_cp_spec w.length cs (w ++ [newPromiseState]) [] newPromiseState hp0
  refine ⟨?_, ?_, rfl, by simp [allSettledBuild], rfl, ?_⟩
  · obtain ⟨sp2, h1, h2, h3⟩ := hex
    exact ⟨sp2, h1, h2, h3⟩
  · intro j hj
    show getP (allSettledLoop w.length (w ++ [newPromiseState]) [] (cs.map CombInput.cp)).1 j =
      getP w j
    rw [hpres j (Nat.ne_of_lt hj) (by
      simp only [List.length_append, List.length_cons, List.length_nil]
      exact Nat.lt_succ_of_lt hj)]
    exact getP_append_lt _ hj
  · show (allSettledLoop w.length (w ++ [newPromiseState]) [] (cs.map CombInput.cp)).2 = _
    rw [hent]
    have : ([] : List (PId × Option SettledRecord)) =
        ([] : List PId).map fun k => (k, (none : Option SettledRecord)) := rfl
    rw [this, foldl_mapSet_none cs [] List.nodup_nil]
    rfl

/-- Fan-in of allSettled: firing the then + finally pairs once per input
position (in any settlement order) over terminal children resolves the
parent with the Map values -- one record per distinct child, in first
insertion order -- and the parent never rejects (its native cell receives
exactly this resolution). -/
theorem allSettledRun_master (w : World) (cs : List PId) (p : PId)
    (rec : PId → SettledRecord) (sp : CPState)
    (hch : ∀ c ∈ cs, ∃ sc, getP w c = some sc ∧ recordFor sc = some (rec c))
    (hsp : getP w p = some sp) (hnat : sp.native = none) :
    ∀ (order : List PId), order ≠ [] →
      ∀ (processed : List PId) (a : FanIn SettledRecord),
      (processed ++ order).Perm cs →
      a.parent = p → a.promisesLength = cs.length →
      a.resultsLength = processed.length →
      a.entries = (jsKeys cs).map
        (fun k => (k, if k ∈ processed then some (rec k) else none)) →
      statusOf (allSettledRun w a order).1 p = some TPromiseStatus.resolved ∧
      nativeOf (allSettledRun w a order).1 p =
        some (NativeResult.resolvedWithRecords
          ((jsKeys cs).map fun k => some (rec k))) := by
  intro order
  induction order with
  | nil => intro hne; exact absurd rfl hne
  | cons c rest ih =>
    intro _ processed a hperm hpar hplen hrlen hent
    have hc_cs : c ∈ cs := hperm.subset (by simp)
    obtain ⟨sc, hsc, hrec⟩ := hch c hc_cs
    have hckeys : c ∈ jsKeys cs := (mem_jsKeys cs c).mpr hc_cs
    have hupd : mapSet a.entries c (some (rec c)) = (jsKeys cs).map
        (fun k => (k, if k ∈ processed ++ [c] then some (rec k) else none)) := by
      rw [hent]
      rw [mapSet_map_mem (jsKeys_nodup cs) hckeys
        (fun k => if k ∈ processed then some (rec k) else none) (some (rec c))]
      apply List.map_congr_left
      intro k _
      by_cases hkc : k = c
      · subst hkc
        simp
      · simp [hkc, List.mem_append]
    by_cases hrest : rest = []
    · subst hrest
      have hlen : processed.length + 1 = cs.length := by
        have := hperm.length_eq
        simp only [List.length_append, List.length_cons, List.length_nil] at this
        omega
      have hrun : (allSettledRun w a [c]).1 = (allSettledStep w a c).1 := by
        simp [allSettledRun]
      have hstep1 : (allSettledStep w a c).1 =
          resolveWrappedRes w p (NativeResult.resolvedWithRecords
            ((mapSet a.entries c (some (rec c))).map Prod.snd)) := by
        simp only [allSettledStep, hsc, hrec]
        rw [if_pos (by rw [hrlen, hplen]; exact hlen)]
        rw [hpar]
      have hrecs : (mapSet a.entries c (some (rec c))).map Prod.snd =
          (jsKeys cs).map fun k => some (rec k) := by
        rw [hupd, List.map_map]
        apply List.map_congr_left
        intro k hk
        have hkcs : k ∈ cs := (mem_jsKeys cs k).mp hk
        have hkin : k ∈ processed ++ [c] := hperm.symm.subset hkcs
        simp [Function.comp, hkin]
      constructor
      · rw [hrun, hstep1, hrecs]
        unfold statusOf resolveWrappedRes
        rw [settleWrapped_getP_self hsp]
        simp [disposeCallbacks]
      · rw [hrun, hstep1, hrecs]
        unfold nativeOf resolveWrappedRes
        rw [settleWrapped_getP_self hsp]
        simp [disposeCallbacks, nativeSettle, hnat]
    · have hlt : a.resultsLength + 1 ≠ a.promisesLength := by
        rw [hrlen, hplen]
        have := hperm.length_eq
        simp only [List.length_append, List.length_cons, List.length_nil] at this
        have hrlen2 : 1 ≤ rest.length := by
          cases rest with
          | nil => exact absurd rfl hrest
          | cons _ _ => simp
        omega
      have hstepw : allSettledStep w a c = (w, { a with
          entries := mapSet a.entries c (some (rec c))
          resultsLength := a.resultsLength + 1 }) := by
        simp only [allSettledStep, hsc, hrec]
        rw [if_neg hlt]
      have hrun : allSettledRun w a (c :: rest) =
          allSettledRun w { a with
            entries := mapSet a.entries c (some (rec c))
            resultsLength := a.resultsLength + 1 } rest := by
        simp [allSettledRun, hstepw]
      rw [hrun]
      apply ih hrest (processed ++ [c])
      · rw [List.append_assoc]
        exact hperm
      · exact hpar
      · exact hplen
      · rw [hrlen]
        simp
      · exact hupd

/-
Claim C5.  allSettled (lines 538-593) ignores reject entirely: its
executor receives resolve and the utilities only.  Each input position
gets a then + finally pair; the finally counter reaches the input length
exactly when the last position fires, at which point the parent resolves
with the Map values, one record per child, in Map (first insertion, that
is input) order, tagged by recordFor according to how the child
terminated.  One divergence: for the empty input list the forEach never
runs and resolve is called from no finally handler, so the combinator
never settles at all.
-/

/-- Claim C5 as stated is false at the empty input list: every child (of
none) has reached a terminal state, yet the allSettled parent stays
pending forever -- there is no finally handler to fire and the executor
never calls resolve (values.forEach on [] does nothing). -/
theorem claim5_counterexample :
    statusOf (allSettledRun (allSettledBuild ([] : World) []).1
        (allSettledBuild ([] : World) []).2 []).1 0 = some TPromiseStatus.pending ∧
    nativeOf (allSettledRun (allSettledBuild ([] : World) []).1
        (allSettledBuild ([] : World) []).2 []).1 0 = none := by decide

/-- Claim C5 amended: for every NON-EMPTY input list of cancelable
children, allSettled never rejects: once every child has reached a
terminal state and the handlers have fired (in any settlement order), the
parent resolves with a same-order collection of outcome records tagged
fulfilled, rejected or canceled according to how each child terminated;
for the empty input list the combinator never settles. -/
theorem claim5_theorem (w : World) (cs order : List PId) (rec : PId → SettledRecord)
    (hne : cs ≠ []) (hnd : cs.Nodup)
    (hlt : ∀ c ∈ cs, c < w.length)
    (hch : ∀ c ∈ cs, ∃ sc, getP w c = some sc ∧ recordFor sc = some (rec c))
    (hperm : order.Perm cs) :
    statusOf (allSettledRun (allSettledBuild w (cs.map CombInput.cp)).1
        (allSettledBuild w (cs.map CombInput.cp)).2 order).1 w.length =
      some TPromiseStatus.resolved ∧
    nativeOf (allSettledRun (allSettledBuild w (cs.map CombInput.cp)).1
        (allSettledBuild w (cs.map CombInput.cp)).2 order).1 w.length =
      some (NativeResult.resolvedWithRecords (cs.map fun c => some (rec c))) := by
  obtain ⟨⟨sp2, hsp2, hst2, hnat2⟩, hpres, hpar, hplen, hrlen, hent⟩ :=
    allSettledBuild_cp_spec w cs
  have hchW : ∀ c ∈ cs, ∃ sc,
      getP (allSettledBuild w (cs.map CombInput.cp)).1 c = some sc ∧
      recordFor sc = some (rec c) := by
    intro c hc
    obtain ⟨sc, hsc, hr⟩ := hch c hc
    exact ⟨sc, by rw [hpres c (hlt c hc)]; exact hsc, hr⟩
  have horder : order ≠ [] := by
    intro h
    subst h
    exact hne hperm.nil_eq.symm
  have hm := allSettledRun_master (allSettledBuild w (cs.map CombInput.cp)).1 cs
    w.length rec sp2 hchW hsp2 hnat2 order horder []
    (allSettledBuild w (cs.map CombInput.cp)).2
    (by simpa using hperm) hpar hplen (by simpa using hrlen)
    (by
      rw [hent]
      apply List.map_congr_left
      intro k _
      simp)
  rw [jsKeys_eq_of_nodup hnd] at hm
  exact hm

/-- Child fixtures mirroring the spec scenario: one rejected, one
canceled, one resolved. -/
def fxRejected : CPState :=
  { newPromiseState with
      status := TPromiseStatus.rejected
      native := some (NativeResult.rejectedWith (JSVal.raw 1)) }

def fxCanceledChild : CPState :=
  { newPromiseState with
      status := TPromiseStatus.canceled
      native := some (NativeResult.rejectedWith (JSVal.raw 2)) }

def fxResolved : CPState :=
  { newPromiseState with
      status := TPromiseStatus.resolved
      native := some (NativeResult.resolvedWith (JSVal.raw 3)) }

/-- Witness for claim5_theorem: allSettled over rejecting, canceling and
resolving children, settling out of input order, resolves with records
tagged rejected, canceled, fulfilled in input order. -/
theorem claim5_witness :
    statusOf (allSettledRun
        (allSettledBuild [fxRejected, fxCanceledChild, fxResolved]
          ([0, 1, 2].map CombInput.cp)).1
        (allSettledBuild [fxRejected, fxCanceledChild, fxResolved]
          ([0, 1, 2].map CombInput.cp)).2 [2, 0, 1]).1 3 =
      some TPromiseStatus.resolved ∧
    nativeOf (allSettledRun
        (allSettledBuild [fxRejected, fxCanceledChild, fxResolved]
          ([0, 1, 2].map CombInput.cp)).1
        (allSettledBuild [fxRejected, fxCanceledChild, fxResolved]
          ([0, 1, 2].map CombInput.cp)).2 [2, 0, 1]).1 3 =
      some (NativeResult.resolvedWithRecords
        [some (SettledRecord.rejected (JSVal.raw 1)),
         some (SettledRecord.canceledRec (JSVal.raw 2)),
         some (SettledRecord.fulfilled (JSVal.raw 3))]) :=
  claim5_theorem [fxRejected, fxCanceledChild, fxResolved] [0, 1, 2] [2, 0, 1]
    (fun c => if c = 0 then SettledRecord.rejected (JSVal.raw 1)
      else if c = 1 then SettledRecord.canceledRec (JSVal.raw 2)
      else SettledRecord.fulfilled (JSVal.raw 3))
    (by decide) (by decide) (by decide)
    (by
      intro c hc
      simp only [List.mem_cons, List.not_mem_nil, or_false] at hc
      rcases hc with rfl | rfl | rfl
      · exact ⟨fxRejected, rfl, rfl⟩
      · exact ⟨fxCanceledChild, rfl, rfl⟩
      · exact ⟨fxResolved, rfl, rfl⟩)
    (by decide)

/-
Claim C10.  all and allSettled key their results Map by the normalized
child instance (results.set(cancelable, ...)), and toCancelablePromise
returns an already-cancelable input unchanged, so a duplicated instance
occupies one Map entry while the completion counter still counts list
positions: the parent resolves with one entry per distinct instance.
-/

theorem allLoop_cons_cp (p : PId) (w : World)
    (entries : List (PId × Option JSVal)) (c : PId) (vs : List CombInput) :
    allLoop p w entries (CombInput.cp c :: vs) =
      allLoop p
        ((createChildPromise
          (subscribeToOwnCancelEvent w p (TCancelCallback.cancelOther c false)) c).1)
        (mapSet entries c none) vs := by
  simp [allLoop, toCancelablePromise]

theorem allLoop_cp_spec (p : PId) :
    ∀ (cs : List PId) (w1 : World)
      (entries : List (PId × Option JSVal)) (sp : CPState),
      getP w1 p = some sp →
      (∃ sp2, getP (allLoop p w1 entries (cs.map CombInput.cp)).1 p = some sp2 ∧
        sp2.status = sp.status ∧ sp2.native = sp.native) ∧
      (∀ j, j ≠ p → j < w1.length →
        getP (allLoop p w1 entries (cs.map CombInput.cp)).1 j = getP w1 j) ∧
      (allLoop p w1 entries (cs.map CombInput.cp)).2 =
        cs.foldl (fun e c => mapSet e c none) entries := by
  intro cs
  induction cs with
  | nil =>
    intro w1 entries sp hp
    exact ⟨⟨sp, by simpa [allLoop] using hp, rfl, rfl⟩,
      by intro j _ _; simp [allLoop],
      by simp [allLoop]⟩
  | cons c rest ih =>
    intro w1 entries sp hp
    have hp2 : getP (subscribeToOwnCancelEvent w1 p (TCancelCallback.cancelOther c false)) p =
        some { sp with ownCancelCallbacks := (setAdd
          sp.ownCancelCallbacks (TCancelCallback.cancelOther c false)) } :=
      subscribeOwn_getP_self hp _
    have hlw2 : (subscribeToOwnCancelEvent w1 p (TCancelCallback.cancelOther c false)).length =
        w1.length := subscribeOwn_length hp _
    obtain ⟨hpresA, _, hlenA⟩ := createChildPromise_spec
      (subscribeToOwnCancelEvent w1 p (TCancelCallback.cancelOther c false)) c
    have hplt : p < (subscribeToOwnCancelEvent w1 p
        (TCancelCallback.cancelOther c false)).length := by
      rw [hlw2]
      exact getP_lt hp
    have hpA : getP (createChildPromise
        (subscribeToOwnCancelEvent w1 p (TCancelCallback.cancelOther c false)) c).1 p =
        some { sp with ownCancelCallbacks := (setAdd
          sp.ownCancelCallbacks (TCancelCallback.cancelOther c false)) } := by
      rw [hpresA p hplt]
      exact hp2
    obtain ⟨hex, hpres, hent⟩ := ih _ (mapSet entries c none) _ hpA
    refine ⟨?_, ?_, ?_⟩
    · obtain ⟨sp2, h1, h2, h3⟩ := hex
      refine ⟨sp2, ?_, h2, h3⟩
      rw [List.map_cons, allLoop_cons_cp]
      exact h1
    · intro j hj hjlt
      rw [List.map_cons, allLoop_cons_cp]
      rw [hpres j hj (by
        rw [hlenA, hlw2]
        exact Nat.lt_succ_of_lt hjlt)]
      rw [hpresA j (by rw [hlw2]; exact hjlt)]
      unfold subscribeToOwnCancelEvent
      rw [hp]
      exact getP_setP_ne _ (Ne.symm hj)
    · rw [List.map_cons, allLoop_cons_cp, hent, List.foldl_cons]

theorem allBuild_cp_spec (w : World) (cs : List PId) :
    (∃ sp2, getP (allBuild w (cs.map CombInput.cp)).1 w.length = some sp2 ∧
      sp2.status = TPromiseStatus.pending ∧ sp2.native = none) ∧
    (∀ j, j < w.length → getP (allBuild w (cs.map CombInput.cp)).1 j = getP w j) ∧
    (allBuild w (cs.map CombInput.cp)).2.parent = w.length ∧
    (allBuild w (cs.map CombInput.cp)).2.promisesLength = cs.length ∧
    (allBuild w (cs.map CombInput.cp)).2.resultsLength = 0 ∧
    (allBuild w (cs.map CombInput.cp)).2.entries =
      (jsKeys cs).map fun k => (k, (none : Option JSVal)) := by
  have hp0 : getP (w ++ [newPromiseState]) w.length = some newPromiseState :=
    getP_append_self ..
  obtain ⟨hex, hpres, hent⟩ :=
    allLoop_cp_spec w.length cs (w ++ [newPromiseState]) [] newPromiseState hp0
  refine ⟨hex, ?_, rfl, by simp [allBuild], rfl, ?_⟩
  · intro j hj
    show getP (allLoop w.length (w ++ [newPromiseState]) [] (cs.map CombInput.cp)).1 j =
      getP w j
    rw [hpres j (Nat.ne_of_lt hj) (by
      simp only [List.length_append, List.length_cons, List.length_nil]
      exact Nat.lt_succ_of_lt hj)]
    exact getP_append_lt _ hj
  · show (allLoop w.length (w ++ [newPromiseState]) [] (cs.map CombInput.cp)).2 = _
    rw [hent]
    have : ([] : List (PId × Option JSVal)) =
        ([] : List PId).map fun k => (k, (none : Option JSVal)) := rfl
    rw [this, foldl_mapSet_none cs [] List.nodup_nil]
    rfl

/-- Fan-in of all over already-resolved children: firing the fulfillment
handler once per input position resolves the parent with the Map values,
one entry per distinct child. -/
theorem allRun_master (w : World) (cs : List PId) (p : PId)
    (val : PId → JSVal) (sp : CPState)
    (hch : ∀ c ∈ cs, ∃ sc, getP w c = some sc ∧
      sc.native = some (NativeResult.resolvedWith (val c)))
    (hsp : getP w p = some sp) (hnat : sp.native = none) :
    ∀ (order : List PId), order ≠ [] →
      ∀ (processed : List PId) (a : FanIn JSVal),
      (processed ++ order).Perm cs →
      a.parent = p → a.promisesLength = cs.length →
      a.resultsLength = processed.length →
      a.entries = (jsKeys cs).map
        (fun k => (k, if k ∈ processed then some (val k) else none)) →
      statusOf (allRun w a order).1 p = some TPromiseStatus.resolved ∧
      nativeOf (allRun w a order).1 p =
        some (NativeResult.resolvedWithArr
          ((jsKeys cs).map fun k => some (val k))) := by
  intro order
  induction order with
  | nil => intro hne; exact absurd rfl hne
  | cons c rest ih =>
    intro _ processed a hperm hpar hplen hrlen hent
    have hc_cs : c ∈ cs := hperm.subset (by simp)
    obtain ⟨sc, hsc, hrc⟩ := hch c hc_cs
    have hckeys : c ∈ jsKeys cs := (mem_jsKeys cs c).mpr hc_cs
    have hupd : mapSet a.entries c (some (val c)) = (jsKeys cs).map
        (fun k => (k, if k ∈ processed ++ [c] then some (val k) else none)) := by
      rw [hent]
      rw [mapSet_map_mem (jsKeys_nodup cs) hckeys
        (fun k => if k ∈ processed then some (val k) else none) (some (val c))]
      apply List.map_congr_left
      intro k _
      by_cases hkc : k = c
      · subst hkc
        simp
      · simp [hkc, List.mem_append]
    by_cases hrest : rest = []
    · subst hrest
      have hlen : processed.length + 1 = cs.length := by
        have := hperm.length_eq
        simp only [List.length_append, List.length_cons, List.length_nil] at this
        omega
      have hrun : (allRun w a [c]).1 = (allStep w a c).1 := by
        simp [allRun]
      have hstep1 : (allStep w a c).1 =
          resolveWrappedRes w p (NativeResult.resolvedWithArr
            ((mapSet a.entries c (some (val c))).map Prod.snd)) := by
        simp only [allStep, hsc, hrc]
        rw [if_pos (by rw [hrlen, hplen]; exact hlen)]
        rw [hpar]
      have hvals : (mapSet a.entries c (some (val c))).map Prod.snd =
          (jsKeys cs).map fun k => some (val k) := by
        rw [hupd, List.map_map]
        apply List.map_congr_left
        intro k hk
        have hkcs : k ∈ cs := (mem_jsKeys cs k).mp hk
        have hkin : k ∈ processed ++ [c] := hperm.symm.subset hkcs
        simp [Function.comp, hkin]
      constructor
      · rw [hrun, hstep1, hvals]
        unfold statusOf resolveWrappedRes
        rw [settleWrapped_getP_self hsp]
        simp [disposeCallbacks]
      · rw [hrun, hstep1, hvals]
        unfold nativeOf resolveWrappedRes
        rw [settleWrapped_getP_self hsp]
        simp [disposeCallbacks, nativeSettle, hnat]
    · have hlt : a.resultsLength + 1 ≠ a.promisesLength := by
        rw [hrlen, hplen]
        have := hperm.length_eq
        simp only [List.length_append, List.length_cons, List.length_nil] at this
        have hrlen2 : 1 ≤ rest.length := by
          cases rest with
          | nil => exact absurd rfl hrest
          | cons _ _ => simp
        omega
      have hstepw : allStep w a c = (w, { a with
          entries := mapSet a.entries c (some (val c))
          resultsLength := a.resultsLength + 1 }) := by
        simp only [allStep, hsc, hrc]
        rw [if_neg hlt]
      have hrun : allRun w a (c :: rest) =
          allRun w { a with
            entries := mapSet a.entries c (some (val c))
            resultsLength := a.resultsLength + 1 } rest := by
        simp [allRun, hstepw]
      rw [hrun]
      apply ih hrest (processed ++ [c])
      · rw [List.append_assoc]
        exact hperm
      · exact hpar
      · exact hplen
      · rw [hrlen]
        simp
      · exact hupd

/-- Claim C10: toCancelablePromise returns an already-cancelable input
unchanged, and for an input list containing the same cancelable instance
more than once (all children resolved), both all and allSettled resolve
their parent with one Map entry per distinct instance -- the resolved
collection has (jsKeys cs).length entries, strictly fewer than the input
list positions. -/
theorem claim10_theorem (w : World) (cs : List PId) (val : PId → JSVal)
    (hdup : ¬ cs.Nodup)
    (hlt : ∀ c ∈ cs, c < w.length)
    (hch : ∀ c ∈ cs, ∃ sc, getP w c = some sc ∧
      sc.native = some (NativeResult.resolvedWith (val c))) :
    (∀ (w2 : World) (c : PId), toCancelablePromise w2 (CombInput.cp c) = (w2, c)) ∧
    nativeOf (allRun (allBuild w (cs.map CombInput.cp)).1
        (allBuild w (cs.map CombInput.cp)).2 cs).1 w.length =
      some (NativeResult.resolvedWithArr ((jsKeys cs).map fun c => some (val c))) ∧
    nativeOf (allSettledRun (allSettledBuild w (cs.map CombInput.cp)).1
        (allSettledBuild w (cs.map CombInput.cp)).2 cs).1 w.length =
      some (NativeResult.resolvedWithRecords
        ((jsKeys cs).map fun c => some (SettledRecord.fulfilled (val c)))) ∧
    ((jsKeys cs).map fun c => some (val c)).length < cs.length := by
  have hcs_ne : cs ≠ [] := by
    intro h
    subst h
    exact hdup List.nodup_nil
  refine ⟨fun w2 c => rfl, ?_, ?_, ?_⟩
  · obtain ⟨⟨sp2, hsp2, _, hnat2⟩, hpres, hpar, hplen, hrlen, hent⟩ :=
      allBuild_cp_spec w cs
    have hchW : ∀ c ∈ cs, ∃ sc,
        getP (allBuild w (cs.map CombInput.cp)).1 c = some sc ∧
        sc.native = some (NativeResult.resolvedWith (val c)) := by
      intro c hc
      obtain ⟨sc, hsc, hn⟩ := hch c hc
      exact ⟨sc, by rw [hpres c (hlt c hc)]; exact hsc, hn⟩
    exact (allRun_master (allBuild w (cs.map CombInput.cp)).1 cs w.length val sp2
      hchW hsp2 hnat2 cs hcs_ne [] (allBuild w (cs.map CombInput.cp)).2
      (by simp) hpar hplen (by simpa using hrlen)
      (by
        rw [hent]
        apply List.map_congr_left
        intro k _
        simp)).2
  · obtain ⟨⟨sp2, hsp2, _, hnat2⟩, hpres, hpar, hplen, hrlen, hent⟩ :=
      allSettledBuild_cp_spec w cs
    have hchW : ∀ c ∈ cs, ∃ sc,
        getP (allSettledBuild w (cs.map CombInput.cp)).1 c = some sc ∧
        recordFor sc = some (SettledRecord.fulfilled (val c)) := by
      intro c hc
      obtain ⟨sc, hsc, hn⟩ := hch c hc
      refine ⟨sc, by rw [hpres c (hlt c hc)]; exact hsc, ?_⟩
      unfold recordFor
      rw [hn]
    exact (allSettledRun_master (allSettledBuild w (cs.map CombInput.cp)).1 cs w.length
      (fun c => SettledRecord.fulfilled (val c)) sp2
      hchW hsp2 hnat2 cs hcs_ne [] (allSettledBuild w (cs.map CombInput.cp)).2
      (by simp) hpar hplen (by simpa using hrlen)
      (by
        rw [hent]
        apply List.map_congr_left
        intro k _
        simp)).2
  · rw [List.length_map]
    exact jsKeys_length_lt cs hdup

/-- Witness for claim10_theorem: the same resolved child listed twice
yields a single-entry resolution for both combinators. -/
theorem claim10_witness :
    (∀ (w2 : World) (c : PId), toCancelablePromise w2 (CombInput.cp c) = (w2, c)) ∧
    nativeOf (allRun (allBuild [fxResolved] ([0, 0].map CombInput.cp)).1
        (allBuild [fxResolved] ([0, 0].map CombInput.cp)).2 [0, 0]).1 1 =
      some (NativeResult.resolvedWithArr
        ((jsKeys [0, 0]).map fun _ => some (JSVal.raw 3))) ∧
    nativeOf (allSettledRun (allSettledBuild [fxResolved] ([0, 0].map CombInput.cp)).1
        (allSettledBuild [fxResolved] ([0, 0].map CombInput.cp)).2 [0, 0]).1 1 =
      some (NativeResult.resolvedWithRecords
        ((jsKeys [0, 0]).map fun _ =>
          some (SettledRecord.fulfilled (JSVal.raw 3)))) ∧
    ((jsKeys [0, 0]).map fun _ => some (JSVal.raw 3)).length < ([0, 0] : List PId).length :=
  claim10_theorem [fxResolved] [0, 0] (fun _ => JSVal.raw 3)
    (by decide) (by decide)
    (by
      intro c hc
      simp only [List.mem_cons, List.not_mem_nil, or_false] at hc
      rcases hc with rfl | rfl
      · exact ⟨fxResolved, rfl, rfl⟩
      · exact ⟨fxResolved, rfl, rfl⟩)

end CPJ
